import Mathlib

set_option maxHeartbeats 1000000

/-!
A shallow embedding of the AMDN constraint-construction engine of `macq`
(`macq/extract/amdn.py`), the `Model` JSON serialization of
`macq/extract/model.py`, and the post-state queries of
`macq/trace/trace.py`, together with theorems settling the specification
claims about them.

Conventions used throughout:
* Propositions and actions are identified by natural numbers.
* Python dicts are modelled as insertion-ordered association lists:
  assignment replaces the value of an existing key in place and appends a
  fresh key at the end, exactly as CPython dicts behave.  Formula keys are
  compared structurally (the `nnf` library's frozen dataclasses hash and
  compare structurally; we keep child lists in construction order, which
  is faithful for the formulas the builders create, all of whose sibling
  subformulas are distinct).
* Python exceptions are modelled with `Except PyErr`.
* Weights are rationals; the string sentinel `"HARD"` is the
  `Weight.hard` constructor, every numeric weight is `Weight.soft`.
-/

namespace Macq

/-! ### Token types, techniques and exceptions -/

/-- The observation token classes that an observation collection can declare
(`obs_lists.type`).  Only the first one is compatible with AMDN. -/
inductive TokenType where
  | noisyPartialDisorderedParallel
  | identityObservation
  | partialObservability
  | actionOnly
deriving DecidableEq

/-- The extraction techniques (`macq.extract.modes`); the error below names
the responsible technique. -/
inductive Technique where
  | amdn
  | observer
  | slaf
deriving DecidableEq

/-- Python exceptions (plus the macq-specific extraction error) that the
embedded code can raise. -/
inductive PyErr where
  | keyError
  | indexError
  | attributeError
  | zeroDivisionError
  | typeError
  | recursionError
  | incompatibleObservationToken (t : TokenType) (tech : Technique)
deriving DecidableEq

/-! ### Decision variables and formulas -/

/-- The first argument `r` handed to the decision-variable factories.  It is
a proposition in the intended uses; in `_build_hard_parallel_constraints`
the source in fact hands over the `ActionPair` keys of the probability
table (`for r in obs_lists.probabilities`), which we model with the
`pair` constructor. -/
inductive RKey where
  | prop (r : ℕ)
  | pair (a b : ℕ)
deriving DecidableEq

/-- Names of the boolean variables of the encoding: the three decision
variables per `(r, action)` pair made by `__set_precond`, `__set_add`,
`__set_del`, plus the auxiliary variables (`Var.aux()` of the `nnf`
library) introduced during CNF conversion, numbered by a counter. -/
inductive VName where
  | preOf (r : RKey) (act : ℕ)
  | addBy (r : RKey) (act : ℕ)
  | delBy (r : RKey) (act : ℕ)
  | aux (n : ℕ)
deriving DecidableEq

/-- NNF formula trees of the `nnf` library: variables with a polarity, and
`And` / `Or` nodes over lists of children. -/
inductive NNF where
  | var (name : VName) (pos : Bool)
  | conj (children : List NNF)
  | disj (children : List NNF)

mutual

/-- Structural decidable equality on formulas (the `deriving` handler does
not support this nested inductive). -/
def nnfDecEq : (a b : NNF) → Decidable (a = b)
  | .var n p, .var n2 p2 =>
    if h1 : n = n2 then
      if h2 : p = p2 then isTrue (by rw [h1, h2])
      else isFalse (fun h => by injection h with hn hp; exact h2 hp)
    else isFalse (fun h => by injection h with hn hp; exact h1 hn)
  | .var _ _, .conj _ => isFalse (fun h => by injection h)
  | .var _ _, .disj _ => isFalse (fun h => by injection h)
  | .conj _, .var _ _ => isFalse (fun h => by injection h)
  | .conj c1, .conj c2 =>
    match nnfListDecEq c1 c2 with
    | isTrue h => isTrue (by rw [h])
    | isFalse h => isFalse (fun he => by injection he with hc; exact h hc)
  | .conj _, .disj _ => isFalse (fun h => by injection h)
  | .disj _, .var _ _ => isFalse (fun h => by injection h)
  | .disj _, .conj _ => isFalse (fun h => by injection h)
  | .disj c1, .disj c2 =>
    match nnfListDecEq c1 c2 with
    | isTrue h => isTrue (by rw [h])
    | isFalse h => isFalse (fun he => by injection he with hc; exact h hc)

/-- Decidable equality on child lists. -/
def nnfListDecEq : (a b : List NNF) → Decidable (a = b)
  | [], [] => isTrue rfl
  | [], _ :: _ => isFalse (fun h => by injection h)
  | _ :: _, [] => isFalse (fun h => by injection h)
  | x :: xs, y :: ys =>
    match nnfDecEq x y, nnfListDecEq xs ys with
    | isTrue h1, isTrue h2 => isTrue (by rw [h1, h2])
    | isFalse h1, _ => isFalse (fun h => by injection h with hh ht; exact h1 hh)
    | _, isFalse h2 => isFalse (fun h => by injection h with hh ht; exact h2 ht)

end

instance : DecidableEq NNF := nnfDecEq

/-- `__set_precond(r, act)`: the variable `"r is a precondition of act"`. -/
def set_precond (r : RKey) (act : ℕ) : NNF := .var (.preOf r act) true

/-- `__set_add(r, act)`: the variable `"r is added by act"`. -/
def set_add (r : RKey) (act : ℕ) : NNF := .var (.addBy r act) true

/-- `__set_del(r, act)`: the variable `"r is deleted by act"`. -/
def set_del (r : RKey) (act : ℕ) : NNF := .var (.delBy r act) true

/-- `x.negate()` / `~x` of the `nnf` library; the source only ever negates
variables, where negation flips the polarity. -/
def negV : NNF → NNF
  | .var n p => .var n (!p)
  | x => x

/-- `nnf.operators.implies a b`, which builds `Or([a.negate(), b])`. -/
def impliesN (a b : NNF) : NNF := .disj [negV a, b]

/-! ### Weights and constraint maps -/

/-- A constraint weight: the string sentinel `"HARD"` or a number. -/
inductive Weight where
  | hard
  | soft (w : ℚ)
deriving DecidableEq

/-- A Python dict from formulas to weights, as an insertion-ordered
association list. -/
abbrev CMap := List (NNF × Weight)

/-- Dict assignment `m[k] = v`: replace in place if the key exists,
append otherwise. -/
def assocSet {α β : Type} [DecidableEq α] : List (α × β) → α → β → List (α × β)
  | [], k, v => [(k, v)]
  | e :: rest, k, v => if e.1 = k then (k, v) :: rest else e :: assocSet rest k v

/-- Dict lookup, returning `none` when the key is absent. -/
def assocLookup {α β : Type} [DecidableEq α] : List (α × β) → α → Option β
  | [], _ => none
  | e :: rest, k => if e.1 = k then some e.2 else assocLookup rest k

/-- Dict lookup `m[k]`, raising `KeyError` when the key is absent. -/
def assocGetE {α β : Type} [DecidableEq α] (m : List (α × β)) (k : α) : Except PyErr β :=
  match assocLookup m k with
  | some v => .ok v
  | none => .error .keyError

/-- Dict deletion `del m[k]`. -/
def assocDel {α β : Type} [DecidableEq α] : List (α × β) → α → List (α × β)
  | [], _ => []
  | e :: rest, k => if e.1 = k then assocDel rest k else e :: assocDel rest k

/-- Dict merge `{**m, **extra}`: entries of `extra` assigned into `m` in
order. -/
def mapMerge {α β : Type} [DecidableEq α] (m extra : List (α × β)) : List (α × β) :=
  extra.foldl (fun acc e => assocSet acc e.1 e.2) m

/-- List indexing `l[i]`, raising `IndexError` when out of range. -/
def listIndexE {α : Type} (l : List α) (i : ℕ) : Except PyErr α :=
  match l.get? i with
  | some x => .ok x
  | none => .error .indexError

/-- Python division, raising `ZeroDivisionError` on a zero denominator. -/
def safeDiv (a b : ℚ) : Except PyErr ℚ :=
  if b = 0 then .error .zeroDivisionError else .ok (a / b)

/-! ### Tseitin CNF conversion (`nnf.tseitin.to_CNF`)

The `nnf` library's `to_CNF` walks the formula with `process_node`, which
returns the literal standing for a node and appends its defining clauses,
introducing one fresh auxiliary variable per internal node; the root is
handled by `process_required`, which turns a root `Or` directly into a
clause over its children's literals and recurses through a root `And`.
The preliminary `theory.simplify()` call is the identity on the formulas
the builders construct (no constants, no duplicated or single-child
nodes below the root), so it is not modelled.  Fresh auxiliary variables
are numbered by a counter threaded through the conversion. -/

/-- A CNF clause: a list of literals (variable name, polarity). -/
abbrev Clause := List (VName × Bool)

/-- Literal negation. -/
def negLit (l : VName × Bool) : VName × Bool := (l.1, !l.2)

/-- A clause as the `Or` formula object used as a dict key. -/
def clauseToNNF (c : Clause) : NNF := .disj (c.map (fun l => NNF.var l.1 l.2))

mutual

/-- `process_node`: returns the literal for the node, the next fresh
auxiliary id, and the accumulated clause list (appended in order). -/
def processNode : NNF → ℕ → List Clause → ((VName × Bool) × ℕ × List Clause)
  | .var v p, n, cls => ((v, p), n, cls)
  | .conj children, n, cls =>
    match processList children n cls with
    | (lits, n1, cls1) =>
      match lits with
      | [l] => (l, n1, cls1)
      | _ =>
        let a : VName × Bool := (.aux n1, true)
        (a, n1 + 1, cls1 ++ [lits.map negLit ++ [a]] ++ lits.map (fun c => [negLit a, c]))
  | .disj children, n, cls =>
    match processList children n cls with
    | (lits, n1, cls1) =>
      match lits with
      | [l] => (l, n1, cls1)
      | _ =>
        let a : VName × Bool := (.aux n1, true)
        (a, n1 + 1, cls1 ++ [negLit a :: lits] ++ lits.map (fun c => [negLit c, a]))

/-- Processes a node's children left to right. -/
def processList : List NNF → ℕ → List Clause → (List (VName × Bool) × ℕ × List Clause)
  | [], n, cls => ([], n, cls)
  | c :: rest, n, cls =>
    match processNode c n cls with
    | (l, n1, cls1) =>
      match processList rest n1 cls1 with
      | (ls, n2, cls2) => (l :: ls, n2, cls2)

end

mutual

/-- `process_required`: the root of the theory must hold, so a root `Or`
becomes one clause over its children's literals, a root `And` recurses,
and a root variable becomes a unit clause. -/
def processRequired : NNF → ℕ → List Clause → (ℕ × List Clause)
  | .var v p, n, cls => (n, cls ++ [[(v, p)]])
  | .disj children, n, cls =>
    match processList children n cls with
    | (lits, n1, cls1) => (n1, cls1 ++ [lits])
  | .conj children, n, cls => processRequiredList children n cls

/-- Processes the conjuncts of a root `And` in order. -/
def processRequiredList : List NNF → ℕ → List Clause → (ℕ × List Clause)
  | [], n, cls => (n, cls)
  | c :: rest, n, cls =>
    match processRequired c n cls with
    | (n1, cls1) => processRequiredList rest n1 cls1

end

/-- `formula.to_CNF()`: the clause list and the next fresh auxiliary id. -/
def toCNF (f : NNF) (n : ℕ) : List Clause × ℕ :=
  match processRequired f n [] with
  | (n1, cls) => (cls, n1)

/-! ### `AMDN` static methods -/

/-- The module constant `WMAX = 1`. -/
def WMAX : ℚ := 1

namespace AMDN

/-- `AMDN._or_refactor`: wrap a bare variable into a one-literal `Or`. -/
def or_refactor (maybeLit : NNF) : NNF :=
  match maybeLit with
  | .var v p => .disj [.var v p]
  | x => x

/-- The auxiliary-variable ids appearing in a clause
(`isinstance(var.name, Aux)`). -/
def clauseAuxVars (c : Clause) : List ℕ :=
  c.filterMap (fun l => match l.1 with | .aux k => some k | _ => none)

/-- Insertion into the `aux_var` set, modelled as an insertion-ordered
duplicate-free list. -/
def insertNew (s : List ℕ) (x : ℕ) : List ℕ := if x ∈ s then s else s ++ [x]

/-- Adds all of `xs` to the set `s`. -/
def insertAllNew (s : List ℕ) (xs : List ℕ) : List ℕ := xs.foldl insertNew s

/-- `AMDN._extract_aux_set_weights(cnf_formula, constraints, prob_disordered)`:
first pass over the clauses collects the auxiliary variables and assigns
every clause the `"HARD"` sentinel; the second pass assigns each collected
auxiliary variable, as a one-literal `Or`, the weight
`prob_disordered * WMAX`. -/
def extract_aux_set_weights (cnfClauses : List Clause) (constraints : CMap)
    (probDisordered : ℚ) : CMap :=
  let p1 := cnfClauses.foldl
    (fun acc clause =>
      (insertAllNew acc.1 (clauseAuxVars clause),
       assocSet acc.2 (clauseToNNF clause) Weight.hard))
    (([] : List ℕ), constraints)
  p1.1.foldl
    (fun m a => assocSet m (or_refactor (NNF.var (.aux a) true)) (.soft (probDisordered * WMAX)))
    p1.2

end AMDN

/-! ### The observation collection -/

/-- A state: a dict from fluents to truth values. -/
abbrev PState := List (ℕ × Bool)

/-- The fluents holding in a state: `[f for f in state if state[f]]`.
(A dict has unique keys, so iterating the keys and looking each one up is
the same as filtering the entries.) -/
def trueFluents (s : PState) : List ℕ := (s.filter (fun e => e.2)).map (fun e => e.1)

/-- An observation token, as read by the noise rules: its (possibly `None`)
action and its state.  The final token of a trace carries action `None`. -/
structure Tok where
  action : Option ℕ
  state : PState
deriving DecidableEq

/-- Default token used only to satisfy total list indexing at positions the
source code has already checked to be in range. -/
def defaultTok : Tok := ⟨none, []⟩

/-- Modelled from the spec: the Observation Collection
(`ParallelActionsObservationLists` holding
`NoisyPartialDisorderedParallelObservation` tokens) is not under `src/`;
following spec §3/§6 it exposes, per trace, the ordered parallel action
sets and the ordered states, the global proposition and action sets, a
probability table keyed by unordered action pairs, the per-trace token
lists that the noise rules iterate, and its declared token `type`. -/
structure ObsLists where
  tokens : List (List Tok)
  all_par_act_sets : List (List (List ℕ))
  states : List (List PState)
  propositions : List ℕ
  actions : List ℕ
  probabilities : List ((ℕ × ℕ) × ℚ)
  tokenType : TokenType
deriving DecidableEq

/-- `obs_lists.probabilities[ActionPair({x, y})]`: the table key is an
unordered pair, so an entry matches in either orientation; a missing entry
raises `KeyError`. -/
def lookupProb (table : List ((ℕ × ℕ) × ℚ)) (x y : ℕ) : Except PyErr ℚ :=
  match table.find? (fun e => (decide (e.1.1 = x) && decide (e.1.2 = y)) ||
      (decide (e.1.1 = y) && decide (e.1.2 = x))) with
  | some e => .ok e.2
  | none => .error .keyError

namespace AMDN

/-! ### `_build_disorder_constraints` -/

/-- The "actions ordered" hypothesis formula of `_build_disorder_constraints`
(lines 88–93): `Or([And([pre(r,x), ~delete(r,x), delete(r,y)]),
And([add(r,x), pre(r,y)]), And([add(r,x), delete(r,y)]),
And([delete(r,x), add(r,y)])])`. -/
def orderedHypothesis (r x y : ℕ) : NNF :=
  .disj [
    .conj [set_precond (.prop r) x, negV (set_del (.prop r) x), set_del (.prop r) y],
    .conj [set_add (.prop r) x, set_precond (.prop r) y],
    .conj [set_add (.prop r) x, set_del (.prop r) y],
    .conj [set_del (.prop r) x, set_add (.prop r) y]]

/-- The "actions disordered" hypothesis formula (lines 96–101), which is the
ordered one with `x` and `y` exchanged. -/
def disorderedHypothesis (r x y : ℕ) : NNF :=
  .disj [
    .conj [set_precond (.prop r) y, negV (set_del (.prop r) y), set_del (.prop r) x],
    .conj [set_add (.prop r) y, set_precond (.prop r) x],
    .conj [set_add (.prop r) y, set_del (.prop r) x],
    .conj [set_del (.prop r) y, set_add (.prop r) x]]

/-- The body of the innermost loop of `_build_disorder_constraints`: for one
proposition `r` and one action pair `(x, y)` with disorder probability `p`,
convert both hypothesis formulas to CNF and register their clauses and
auxiliary weights, the ordered one with weight `(1 - p)` and the disordered
one with weight `p`. -/
def disorderStep (p : ℚ) (x y r : ℕ) (m : CMap) (ctr : ℕ) : CMap × ℕ :=
  let co := toCNF (orderedHypothesis r x y) ctr
  let m1 := extract_aux_set_weights co.1 m (1 - p)
  let cd := toCNF (disorderedHypothesis r x y) co.2
  (extract_aux_set_weights cd.1 m1 p, cd.2)

/-- The loops over a single trace's adjacent parallel-action-set pairs and
action combinations (lines 78–101). -/
def disorderTrace (obs : ObsLists) (parActSets : List (List ℕ)) (st : CMap × ℕ) :
    Except PyErr (CMap × ℕ) :=
  (List.range (parActSets.length - 1)).foldlM
    (fun st j =>
      (parActSets.getD j []).foldlM
        (fun st x =>
          (parActSets.getD (j + 1) []).foldlM
            (fun st y =>
              if x ≠ y then do
                let p ← lookupProb obs.probabilities x y
                pure (obs.propositions.foldl (fun s r => disorderStep p x y r s.1 s.2) st)
              else pure st)
            st)
        st)
    st

/-- `AMDN._build_disorder_constraints`.  NOTE: the `return` in the source
(line 102) sits inside the per-trace loop, so only the first trace is ever
processed; with no traces at all the loop body never runs and the function
falls through, returning Python `None` (modelled as `none`).  The fresh
auxiliary-variable counter is threaded explicitly. -/
def build_disorder_constraints (obs : ObsLists) (ctr : ℕ) :
    Except PyErr (Option (CMap × ℕ)) :=
  match obs.all_par_act_sets with
  | [] => .ok none
  | t0 :: _ => (disorderTrace obs t0 (([] : CMap), ctr)).map (fun s => some s)

/-! ### `_build_hard_parallel_constraints` and `_build_soft_parallel_constraints` -/

/-- `AMDN._build_hard_parallel_constraints`.  NOTE two facts visible in the
source: the inner loop is `for r in obs_lists.probabilities`, which
iterates the `ActionPair` keys of the probability table (modelled as
`RKey.pair`), not the propositions; and the stored weight is the number
`WMAX = 1`, not the `"HARD"` string sentinel. -/
def build_hard_parallel_constraints (obs : ObsLists) : CMap :=
  obs.actions.foldl
    (fun m act =>
      obs.probabilities.foldl
        (fun m entry =>
          let r := RKey.pair entry.1.1 entry.1.2
          let m1 := assocSet m (impliesN (set_add r act) (negV (set_precond r act)))
            (.soft WMAX)
          assocSet m1 (impliesN (set_del r act) (set_precond r act)) (.soft WMAX))
        m)
    []

/-- The mutual-exclusion formula of `_build_soft_parallel_constraints`:
`Or([And([~add(r,a), ~delete(r,a)]), And([~add(r,b), ~delete(r,b)])])`. -/
def parallelMutexFormula (r a b : ℕ) : NNF :=
  .disj [
    .conj [negV (set_add (.prop r) a), negV (set_del (.prop r) a)],
    .conj [negV (set_add (.prop r) b), negV (set_del (.prop r) b)]]

/-- Registration of one mutual-exclusion formula with weight `w`. -/
def softParStep (w : ℚ) (a b r : ℕ) (m : CMap) (ctr : ℕ) : CMap × ℕ :=
  let c := toCNF (parallelMutexFormula r a b) ctr
  (extract_aux_set_weights c.1 m w, c.2)

/-- `AMDN._build_soft_parallel_constraints`: the first pass compares the
distinct action pairs inside each parallel action set of every trace,
weight `1 - p`; the second pass compares the actions of adjacent sets,
weight `p`.  (Both passes really do cover every trace: the function's
`return` is at function level.) -/
def build_soft_parallel_constraints (obs : ObsLists) (ctr : ℕ) :
    Except PyErr (CMap × ℕ) := do
  let st1 ← obs.all_par_act_sets.foldlM
    (fun st parActSets =>
      parActSets.foldlM
        (fun st actSet =>
          actSet.foldlM
            (fun st x =>
              actSet.foldlM
                (fun st xp =>
                  if x ≠ xp then do
                    let p ← lookupProb obs.probabilities x xp
                    pure (obs.propositions.foldl
                      (fun s r => softParStep (1 - p) xp x r s.1 s.2) st)
                  else pure st)
                st)
            st)
        st)
    (([] : CMap), ctr)
  obs.all_par_act_sets.foldlM
    (fun st parActSets =>
      (List.range (parActSets.length - 1)).foldlM
        (fun st j =>
          (parActSets.getD (j + 1) []).foldlM
            (fun st y =>
              (parActSets.getD j []).foldlM
                (fun st xp =>
                  if y ≠ xp then do
                    let p ← lookupProb obs.probabilities y xp
                    pure (obs.propositions.foldl
                      (fun s r => softParStep p xp y r s.1 s.2) st)
                  else pure st)
                st)
            st)
        st)
    st1

/-- `AMDN._build_parallel_constraints`:
`{**_build_hard_parallel_constraints(...), **_build_soft_parallel_constraints(...)}`. -/
def build_parallel_constraints (obs : ObsLists) (ctr : ℕ) : Except PyErr (CMap × ℕ) := do
  let s ← build_soft_parallel_constraints obs ctr
  pure (mapMerge (build_hard_parallel_constraints obs) s.1, s.2)

/-! ### The noise constraint builders -/

/-- `AMDN._calculate_all_r_occ`: the number of true propositions summed over
every token state of every trace. -/
def calculate_all_r_occ (obs : ObsLists) : ℕ :=
  obs.tokens.foldl
    (fun acc trace => trace.foldl (fun acc st => acc + (trueFluents st.state).length) acc)
    0

/-- The nested occurrences dict: action keys to (proposition keys to counts). -/
abbrev OccDict := List (ℕ × List (ℕ × ℕ))

/-- `AMDN._set_up_occurrences_dict`: every action maps to every proposition
with count 0. -/
def set_up_occurrences_dict (obs : ObsLists) : OccDict :=
  obs.actions.foldl
    (fun d a => assocSet d a (obs.propositions.foldl (fun inner r => assocSet inner r 0) []))
    []

/-- `occurrences[a][r] += 1`: both lookups raise `KeyError` when the key is
absent; in particular a token whose action is `None` has no entry. -/
def occInc (d : OccDict) (a : Option ℕ) (r : ℕ) : Except PyErr OccDict := do
  match a with
  | none => .error .keyError
  | some act => do
    let inner ← assocGetE d act
    let c ← assocGetE inner r
    pure (assocSet d act (assocSet inner r (c + 1)))

/-- The counting loop of `_noise_constraints_6`: every step except the last
(`the last action is None`), counting the propositions true in the state of
the following step. -/
def rule6Fill (obs : ObsLists) : Except PyErr OccDict :=
  obs.tokens.foldlM
    (fun d trace =>
      (List.range (trace.length - 1)).foldlM
        (fun d j =>
          (trueFluents (trace.getD (j + 1) defaultTok).state).foldlM
            (fun d r => occInc d (trace.getD j defaultTok).action r)
            d)
        d)
    (set_up_occurrences_dict obs)

/-- The counting loop of `_noise_constraints_8`: every step, counting the
propositions true in that same step's state. -/
def rule8Fill (obs : ObsLists) : Except PyErr OccDict :=
  obs.tokens.foldlM
    (fun d trace =>
      (List.range trace.length).foldlM
        (fun d j =>
          (trueFluents (trace.getD j defaultTok).state).foldlM
            (fun d r => occInc d (trace.getD j defaultTok).action r)
            d)
        d)
    (set_up_occurrences_dict obs)

/-- The inner emission loop shared by rules 6 and 8: for one action `a`,
walk its proposition counts and, whenever a count exceeds the threshold,
assign the constraint `key r a` the weight `count / all_occ` (Python's
division, raising `ZeroDivisionError` when `all_occ` is zero). -/
def noiseEmitInner (key : ℕ → ℕ → NNF) (a : ℕ) :
    List (ℕ × ℕ) → ℕ → ℤ → CMap → Except PyErr CMap
  | [], _, _, m => .ok m
  | rc :: rest, allOcc, t, m =>
    if (rc.2 : ℤ) > t then do
      let w ← safeDiv (rc.2 : ℚ) (allOcc : ℚ)
      noiseEmitInner key a rest allOcc t (assocSet m (key rc.1 a) (.soft w))
    else noiseEmitInner key a rest allOcc t m

/-- The outer emission loop shared by rules 6 and 8, over the occurrence
dict in insertion order. -/
def noiseEmitFold (key : ℕ → ℕ → NNF) :
    OccDict → ℕ → ℤ → CMap → Except PyErr CMap
  | [], _, _, m => .ok m
  | e :: rest, allOcc, t, m => do
    let m1 ← noiseEmitInner key e.1 e.2 allOcc t m
    noiseEmitFold key rest allOcc t m1

/-- The constraint key of rule 6: `_or_refactor(~delete(r, a))`. -/
def rule6Key (r a : ℕ) : NNF := or_refactor (negV (set_del (.prop r) a))

/-- The constraint key of rule 8: `_or_refactor(pre(r, a))`. -/
def rule8Key (r a : ℕ) : NNF := or_refactor (set_precond (.prop r) a)

/-- `AMDN._noise_constraints_6`. -/
def noise_constraints_6 (obs : ObsLists) (allOcc : ℕ) (t : ℤ) : Except PyErr CMap := do
  let occurrences ← rule6Fill obs
  noiseEmitFold rule6Key occurrences allOcc t []

/-- `AMDN._noise_constraints_8`. -/
def noise_constraints_8 (obs : ObsLists) (allOcc : ℕ) (t : ℤ) : Except PyErr CMap := do
  let occurrences ← rule8Fill obs
  noiseEmitFold rule8Key occurrences allOcc t []

/-- The counting loop of `_noise_constraints_7`: each proposition's global
true occurrences over `obs_lists.states`. -/
def rule7Fill (obs : ObsLists) : Except PyErr (List (ℕ × ℕ)) :=
  obs.states.foldlM
    (fun d trace =>
      trace.foldlM
        (fun d state =>
          (trueFluents state).foldlM
            (fun d r => do
              let c ← assocGetE d r
              pure (assocSet d r (c + 1)))
            d)
        d)
    (obs.propositions.foldl (fun d r => assocSet d r 0) ([] : List (ℕ × ℕ)))

/-- The emission loop of `_noise_constraints_7`: for each trace and each
boundary `j`, every proposition true in `states[j+1]` but false in
`states[j]` yields the constraint
`Or([add(r, act) for act in par_act_sets[j]])` with weight
`occurrences[r] / all_occ`. -/
def rule7Main (obs : ObsLists) (occurrences : List (ℕ × ℕ)) (allOcc : ℕ) :
    Except PyErr CMap :=
  (List.range obs.all_par_act_sets.length).foldlM
    (fun m i => do
      let parActSets := obs.all_par_act_sets.getD i []
      let states ← listIndexE obs.states i
      (List.range parActSets.length).foldlM
        (fun m j => do
          let stNext ← listIndexE states (j + 1)
          (trueFluents stNext).foldlM
            (fun m r => do
              let stJ ← listIndexE states j
              let v ← assocGetE stJ r
              if !v then do
                let c ← assocGetE occurrences r
                let w ← safeDiv (c : ℚ) (allOcc : ℚ)
                pure (assocSet m
                  (.disj ((parActSets.getD j []).map (fun act => set_add (.prop r) act)))
                  (.soft w))
              else pure m)
            m)
        m)
    ([] : CMap)

/-- `AMDN._noise_constraints_7`: the counting loop followed by the emission
loop. -/
def noise_constraints_7 (obs : ObsLists) (allOcc : ℕ) : Except PyErr CMap := do
  let occurrences ← rule7Fill obs
  rule7Main obs occurrences allOcc

/-- `AMDN._build_noise_constraints`:
`{**_noise_constraints_6(...), **_noise_constraints_7(...), **_noise_constraints_8(...)}`
with `all_occ = _calculate_all_r_occ(obs_lists)`. -/
def build_noise_constraints (obs : ObsLists) (t : ℤ) : Except PyErr CMap := do
  let allOcc := calculate_all_r_occ obs
  let m6 ← noise_constraints_6 obs allOcc t
  let m7 ← noise_constraints_7 obs allOcc
  let m8 ← noise_constraints_8 obs allOcc t
  pure (mapMerge (mapMerge m6 m7) m8)

/-! ### Aggregation and the weighted-CNF encoder -/

/-- Unpacking the disorder builder's return value into the merged dict:
when the builder returned `None` (no traces), `{**None, ...}` raises
`TypeError`. -/
def unpackDisorder : Option (CMap × ℕ) → Except PyErr (CMap × ℕ)
  | none => .error .typeError
  | some s => .ok s

/-- `AMDN._set_all_constraints`:
`{**_build_disorder_constraints(...), **_build_parallel_constraints(...), **_build_noise_constraints(...)}`. -/
def set_all_constraints (obs : ObsLists) (t : ℤ) (ctr : ℕ) :
    Except PyErr (CMap × ℕ) := do
  let d ← build_disorder_constraints obs ctr
  let dOk ← unpackDisorder d
  let p ← build_parallel_constraints obs dOk.2
  let nm ← build_noise_constraints obs t
  pure (mapMerge (mapMerge dOk.1 p.1) nm, p.2)

/-- The numeric value of a weight as handed to `to_wcnf` (after the hard
entries have been removed every remaining value is a number). -/
def weightValue : Weight → ℚ
  | .hard => 0
  | .soft w => w

/-- A weighted-CNF problem at the solver boundary. -/
structure WCNFProb where
  softClauses : List NNF
  softWeights : List ℚ
  hardClauses : List NNF
  sentinel : ℚ
deriving DecidableEq

/-- Modelled from the spec: `to_wcnf` (from `macq.utils.pysat`) is not under
`src/`; per spec §6 the emitted problem carries the soft formulas with
their weights, the hard formulas at the sentinel weight, and a hard-clause
weight sentinel chosen strictly greater than the sum of all soft
weights. -/
def to_wcnf (forms : List NNF) (ws : List ℚ) (hards : List NNF) : WCNFProb :=
  { softClauses := forms, softWeights := ws, hardClauses := hards,
    sentinel := ws.sum + 1 }

/-- `AMDN._solve_constraints`: build all constraints, move every entry whose
weight is the `"HARD"` sentinel into the hard list (`weight == "HARD"`,
then `del constraints[c]`), and encode the remainder with their numeric
weights. -/
def solve_constraints (obs : ObsLists) (t : ℤ) (ctr : ℕ) :
    Except PyErr (WCNFProb × ℕ) := do
  let (constraints, ctr1) ← set_all_constraints obs t ctr
  let hardConstraints := (constraints.filter (fun e => decide (e.2 = Weight.hard))).map
    (fun e => e.1)
  let remaining := hardConstraints.foldl (fun m c => assocDel m c) constraints
  pure (to_wcnf (remaining.map (fun e => e.1)) (remaining.map (fun e => weightValue e.2))
    hardConstraints, ctr1)

/-- `AMDN.__new__`: reject any observation collection whose declared token
type is not `NoisyPartialDisorderedParallelObservation` before anything
else runs; otherwise run `_solve_constraints` (the conversion of its
result to a `Model` is an unimplemented stub in the source). -/
def amdn_new (obs : ObsLists) (occThreshold : ℤ) (ctr : ℕ) :
    Except PyErr (WCNFProb × ℕ) :=
  if obs.tokenType ≠ TokenType.noisyPartialDisorderedParallel then
    .error (.incompatibleObservationToken obs.tokenType .amdn)
  else
    solve_constraints obs occThreshold ctr

end AMDN

/-! ### `Trace.get_post_states` and `Trace.get_sas_triples`
(`macq/trace/trace.py`) -/

/-- A step of a trace: its state and its (possibly `None`) action. -/
structure Step where
  state : PState
  action : Option ℕ
deriving DecidableEq

/-- The `SAS` triple dataclass. -/
structure SAS where
  pre_state : PState
  action : ℕ
  post_state : PState
deriving DecidableEq

/-- `Trace.get_post_states(action)`: walk the enumerated steps; at each step
whose action equals the queried one, append `self[i + 1].state`.  The index
`i + 1` is in range exactly when the matching step is not the last one, so
a match at the last step raises `IndexError`; we model the walk
structurally, where `self[i + 1]` is the head of the remaining steps. -/
def get_post_states : List Step → ℕ → Except PyErr (List PState)
  | [], _ => .ok []
  | st :: rest, a =>
    if st.action = some a then
      match rest with
      | [] => .error .indexError
      | nxt :: _ => (get_post_states rest a).map (fun l => nxt.state :: l)
    else get_post_states rest a

/-- `Trace.get_sas_triples(action)`: same walk as `get_post_states`, but
collecting `SAS(step.state, action, self[i + 1].state)` triples. -/
def get_sas_triples : List Step → ℕ → Except PyErr (List SAS)
  | [], _ => .ok []
  | st :: rest, a =>
    if st.action = some a then
      match rest with
      | [] => .error .indexError
      | nxt :: _ => (get_sas_triples rest a).map (fun l => ⟨st.state, a, nxt.state⟩ :: l)
    else get_sas_triples rest a

/-! ### `Model.serialize` (`macq/extract/model.py`)

`Model.serialize` runs `json.dumps(self, indent=2, default=lambda o: o.__dict__)`.
`json.dumps` natively encodes strings, numbers, booleans, lists and
string-keyed dicts, and calls the `default` function on anything else.
The `default` lambda reads `o.__dict__`, which exists on a `Model`
instance (giving `{"fluents": ..., "actions": ...}`) but not on builtin
containers: accessing `__dict__` on a `set` raises `AttributeError`. -/

/-- The Python values reachable while serializing a `Model`. -/
inductive PyObj where
  | pstr (s : String)
  | pint (n : ℤ)
  | pbool (b : Bool)
  | pset (elems : List PyObj)
  | plist (elems : List PyObj)
  | pdict (entries : List (String × PyObj))
  | pmodel (fluents actions : PyObj)

/-- JSON values produced by a successful encode. -/
inductive JVal where
  | jstr (s : String)
  | jnum (n : ℤ)
  | jbool (b : Bool)
  | jarr (elems : List JVal)
  | jobj (entries : List (String × JVal))

/-- The `default=lambda o: o.__dict__` fallback of `Model.serialize`: a
`Model` instance has an instance dict; builtin objects reached here (the
fluent and action `set`s) have no `__dict__` attribute. -/
def jsonDefault : PyObj → Except PyErr PyObj
  | .pmodel f a => .ok (.pdict [("fluents", f), ("actions", a)])
  | _ => .error .attributeError

/-- `json.dumps`: encode native values structurally and send anything else
through the `default` fallback.  The fuel bounds the recursion depth
(Python's recursion limit); it is never exhausted on the values at hand. -/
def jsonEncode : ℕ → PyObj → Except PyErr JVal
  | 0, _ => .error .recursionError
  | _ + 1, .pstr s => .ok (.jstr s)
  | _ + 1, .pint n => .ok (.jnum n)
  | _ + 1, .pbool b => .ok (.jbool b)
  | fuel + 1, .plist l => (l.mapM (jsonEncode fuel)).map .jarr
  | fuel + 1, .pdict es =>
    (es.mapM (fun e => (jsonEncode fuel e.2).map (fun v => (e.1, v)))).map .jobj
  | fuel + 1, .pset l => do jsonEncode fuel (← jsonDefault (.pset l))
  | fuel + 1, .pmodel f a => do jsonEncode fuel (← jsonDefault (.pmodel f a))

/-- The `Model` value object: a set of fluents and a set of actions (their
elements stay abstract Python values; serialization fails before ever
looking at them). -/
structure Model where
  fluents : List PyObj
  actions : List PyObj

/-- A `Model` instance as the Python object handed to `json.dumps`: its two
attributes are builtin `set`s. -/
def Model.toPyObj (m : Model) : PyObj := .pmodel (.pset m.fluents) (.pset m.actions)

/-- `Model.serialize` (without a filepath): `dumps(self, indent=2,
default=lambda o: o.__dict__)`. -/
def Model.serialize (m : Model) : Except PyErr JVal := jsonEncode 10 m.toPyObj

/-! ### Specification-side helper definitions -/

/-- Does an `r`-key involve the action id `x` (possible only for the
`ActionPair` keys)? -/
def rkeyHasAct : RKey → ℕ → Bool
  | .prop _, _ => false
  | .pair a b, x => a == x || b == x

/-- Does a variable name refer to the action id `x`? -/
def vnameHasAct : VName → ℕ → Bool
  | .preOf r a, x => a == x || rkeyHasAct r x
  | .addBy r a, x => a == x || rkeyHasAct r x
  | .delBy r a, x => a == x || rkeyHasAct r x
  | .aux _, _ => false

mutual

/-- Does a formula mention the action id `x`? -/
def nnfHasAct : NNF → ℕ → Bool
  | .var v _, x => vnameHasAct v x
  | .conj cs, x => nnfListHasAct cs x
  | .disj cs, x => nnfListHasAct cs x

/-- Does any formula of the list mention the action id `x`? -/
def nnfListHasAct : List NNF → ℕ → Bool
  | [], _ => false
  | c :: rest, x => nnfHasAct c x || nnfListHasAct rest x

end

/-- Does any constraint of the map mention the action id `x`? -/
def cmapHasAct (m : CMap) (x : ℕ) : Bool := m.any (fun e => nnfHasAct e.1 x)

/-- Does a variable name carry a proposition-valued `r` key? -/
def vnameHasPropKey : VName → Bool
  | .preOf (.prop _) _ => true
  | .addBy (.prop _) _ => true
  | .delBy (.prop _) _ => true
  | _ => false

mutual

/-- Does a formula mention a proposition-keyed decision variable? -/
def nnfHasPropKey : NNF → Bool
  | .var v _ => vnameHasPropKey v
  | .conj cs => nnfListHasPropKey cs
  | .disj cs => nnfListHasPropKey cs

/-- Does any formula of the list mention a proposition-keyed variable? -/
def nnfListHasPropKey : List NNF → Bool
  | [] => false
  | c :: rest => nnfHasPropKey c || nnfListHasPropKey rest

end

/-- The one-literal disjunction on a positive auxiliary variable: the form
of the soft unit constraints that carry the weights. -/
def auxUnit (a : ℕ) : NNF := .disj [.var (.aux a) true]

/-- Is a clause a positive unit clause on an auxiliary variable? -/
def isPosAuxUnit : Clause → Bool
  | [(.aux _, true)] => true
  | _ => false

/-- The auxiliary variables collected from a CNF, in first-occurrence order
(the order `_extract_aux_set_weights` collects them). -/
def cnfAuxList (cnf : List Clause) : List ℕ :=
  cnf.foldl (fun s c => AMDN.insertAllNew s (AMDN.clauseAuxVars c)) []

/-- Does the last step of the trace carry the queried action?  (An empty
trace has no last step.) -/
def lastActionIs : List Step → ℕ → Bool
  | [], _ => false
  | [st], a => decide (st.action = some a)
  | _ :: rest, a => lastActionIs rest a

/-- The number of occurrences of the action in the trace. -/
def occCount : List Step → ℕ → ℕ
  | [], _ => 0
  | st :: rest, a => (if st.action = some a then 1 else 0) + occCount rest a

/-- Every soft weight stored in the map is non-negative. -/
def SoftNonneg (m : CMap) : Prop := ∀ e ∈ m, ∀ w, e.2 = Weight.soft w → 0 ≤ w

/-- The structural invariant of the occurrences dict: no duplicate action
keys, and no duplicate proposition keys within any action's entry. -/
def OccWF (d : AMDN.OccDict) : Prop :=
  (d.map Prod.fst).Nodup ∧ ∀ e ∈ d, (e.2.map Prod.fst).Nodup

/-- The input contract of spec §6 on the state lists: one more state than
parallel action sets, for each trace. -/
def statesWF (obs : ObsLists) : Prop :=
  obs.all_par_act_sets.length ≤ obs.states.length ∧
  ∀ i ∈ List.range obs.all_par_act_sets.length,
    (obs.all_par_act_sets.getD i []).length + 1 ≤ (obs.states.getD i []).length

/-! ### Concrete inputs used by counterexamples and witnesses -/

/-- An observation collection with two actions, one proposition and one
probability-table entry; used to evaluate the hard parallel builder. -/
def obsC1 : ObsLists :=
  ⟨[], [], [], [0], [0, 1], [((0, 1), 1/2)], .noisyPartialDisorderedParallel⟩

/-- An observation collection with two traces, each contributing a pair of
adjacent singleton parallel action sets over distinct actions. -/
def obsC2 : ObsLists :=
  ⟨[], [[[0], [1]], [[2], [3]]], [], [0], [0, 1, 2, 3],
   [((0, 1), 1/2), ((2, 3), 1/2)], .noisyPartialDisorderedParallel⟩

/-- A well-formed single-trace observation collection whose only action pair
has disorder probability 1, so the ordered disorder hypothesis receives
soft weight 0. -/
def obsC3 : ObsLists :=
  ⟨[[]], [[[0], [1]]], [[[(0, false)], [(0, false)], [(0, false)]]], [0], [0, 1],
   [((0, 1), 1)], .noisyPartialDisorderedParallel⟩

/-- Like `obsC2` but with action ids 10, 11, 14, 15, for the disorder-weight
claim. -/
def obsC5 : ObsLists :=
  ⟨[], [[[10], [11]], [[14], [15]]], [], [0], [10, 11, 14, 15],
   [((10, 11), 3/10), ((14, 15), 3/10)], .noisyPartialDisorderedParallel⟩

/-- An observation collection with no traces at all but a non-empty action
and proposition set, so all occurrence counts and the total occurrence
count are zero. -/
def obsC7 : ObsLists := ⟨[], [], [], [0], [0], [], .noisyPartialDisorderedParallel⟩

/-- A well-formed one-trace collection in which no proposition is ever true. -/
def obsC7w : ObsLists :=
  ⟨[[⟨some 0, [(0, false)]⟩, ⟨none, [(0, false)]⟩]], [[[0]]],
   [[[(0, false)], [(0, false)]]], [0], [0], [], .noisyPartialDisorderedParallel⟩

/-- A one-trace collection whose proposition 0 holds after action 0
executes (rule 6 count 1) and in both states where action 0 appears
(rule 8 count 2). -/
def obsC8 : ObsLists :=
  ⟨[[⟨some 0, [(0, true)]⟩, ⟨some 0, [(0, true)]⟩]], [], [], [0], [0], [],
   .noisyPartialDisorderedParallel⟩

/-- An observation collection declaring an incompatible token type. -/
def obsC9 : ObsLists := ⟨[], [], [], [0], [0], [], .identityObservation⟩

/-- The boolean evidence extracted from running the disorder builder on
`obsC2`: its result mentions the first trace's action 0 but nothing from
the second trace (action 2). -/
def c2Check : Bool :=
  match AMDN.build_disorder_constraints obsC2 0 with
  | .ok (some (m, _)) => cmapHasAct m 0 && !(cmapHasAct m 2)
  | _ => false

/-- The boolean evidence extracted from running the disorder builder on
`obsC5`: constraints for the first trace's pair (10, 11) are registered
while nothing at all is registered for the second trace's pair (14, 15). -/
def c5Check : Bool :=
  match AMDN.build_disorder_constraints obsC5 0 with
  | .ok (some (m, _)) => cmapHasAct m 10 && !(cmapHasAct m 14)
  | _ => false

/-- The soft-weight list of the weighted-CNF problem the encoder emits on
`obsC3`. -/
def c3SoftWeights : List ℚ :=
  match AMDN.solve_constraints obsC3 0 0 with
  | .ok (w, _) => w.softWeights
  | _ => []

/-- The weighted-CNF problem the encoder emits on `obsC3`. -/
def c3Prob : AMDN.WCNFProb :=
  match AMDN.solve_constraints obsC3 0 0 with
  | .ok (w, _) => w
  | _ => ⟨[], [], [], 0⟩

/-- The final auxiliary counter of the run on `obsC3`. -/
def c3Ctr : ℕ :=
  match AMDN.solve_constraints obsC3 0 0 with
  | .ok (_, k) => k
  | _ => 0

/-- A concrete CNF produced by the conversion step, for the witness of the
`_extract_aux_set_weights` claim. -/
def cnfC6 : List Clause := (toCNF (AMDN.orderedHypothesis 0 1 2) 0).1

/-- The explicit clause list Tseitin conversion produces for the ordered
disorder hypothesis, starting at auxiliary counter `ctr`: one defining
clause group per `And` disjunct (auxiliaries `ctr` … `ctr + 3`) and the
root clause over the four auxiliaries. -/
def orderedCNFex (r x y ctr : ℕ) : List Clause :=
  [[(.preOf (.prop r) x, false), (.delBy (.prop r) x, true), (.delBy (.prop r) y, false),
    (.aux ctr, true)],
   [(.aux ctr, false), (.preOf (.prop r) x, true)],
   [(.aux ctr, false), (.delBy (.prop r) x, false)],
   [(.aux ctr, false), (.delBy (.prop r) y, true)],
   [(.addBy (.prop r) x, false), (.preOf (.prop r) y, false), (.aux (ctr + 1), true)],
   [(.aux (ctr + 1), false), (.addBy (.prop r) x, true)],
   [(.aux (ctr + 1), false), (.preOf (.prop r) y, true)],
   [(.addBy (.prop r) x, false), (.delBy (.prop r) y, false), (.aux (ctr + 2), true)],
   [(.aux (ctr + 2), false), (.addBy (.prop r) x, true)],
   [(.aux (ctr + 2), false), (.delBy (.prop r) y, true)],
   [(.delBy (.prop r) x, false), (.addBy (.prop r) y, false), (.aux (ctr + 3), true)],
   [(.aux (ctr + 3), false), (.delBy (.prop r) x, true)],
   [(.aux (ctr + 3), false), (.addBy (.prop r) y, true)],
   [(.aux ctr, true), (.aux (ctr + 1), true), (.aux (ctr + 2), true), (.aux (ctr + 3), true)]]

/-- The explicit clause list for the disordered hypothesis (the ordered one
with `x` and `y` exchanged), starting at auxiliary counter `ctr`. -/
def disorderedCNFex (r x y ctr : ℕ) : List Clause :=
  [[(.preOf (.prop r) y, false), (.delBy (.prop r) y, true), (.delBy (.prop r) x, false),
    (.aux ctr, true)],
   [(.aux ctr, false), (.preOf (.prop r) y, true)],
   [(.aux ctr, false), (.delBy (.prop r) y, false)],
   [(.aux ctr, false), (.delBy (.prop r) x, true)],
   [(.addBy (.prop r) y, false), (.preOf (.prop r) x, false), (.aux (ctr + 1), true)],
   [(.aux (ctr + 1), false), (.addBy (.prop r) y, true)],
   [(.aux (ctr + 1), false), (.preOf (.prop r) x, true)],
   [(.addBy (.prop r) y, false), (.delBy (.prop r) x, false), (.aux (ctr + 2), true)],
   [(.aux (ctr + 2), false), (.addBy (.prop r) y, true)],
   [(.aux (ctr + 2), false), (.delBy (.prop r) x, true)],
   [(.delBy (.prop r) y, false), (.addBy (.prop r) x, false), (.aux (ctr + 3), true)],
   [(.aux (ctr + 3), false), (.delBy (.prop r) y, true)],
   [(.aux (ctr + 3), false), (.addBy (.prop r) x, true)],
   [(.aux ctr, true), (.aux (ctr + 1), true), (.aux (ctr + 2), true), (.aux (ctr + 3), true)]]

/-- A trace whose last (and only) step carries action 5. -/
def c10TrLast : List Step := [⟨[(0, true)], some 5⟩]

/-- A trace with one occurrence of action 5, not in last position. -/
def c10TrOk : List Step := [⟨[(1, true)], some 5⟩, ⟨[(9, true)], none⟩]

end Macq

deriving instance DecidableEq for Except

namespace Macq

/-! ## Theorems settling the claims -/

/-- C9: for every observation collection whose declared token type is not the
noisy/partial/disordered/parallel variant, AMDN extraction returns the
`IncompatibleObservationToken` error naming the received type and the AMDN
technique, before anything else runs: no constraint builder output or
weighted-CNF artifact is produced. -/
theorem c9_incompatible_token (obs : ObsLists) (t : ℤ) (ctr : ℕ)
    (h : obs.tokenType ≠ TokenType.noisyPartialDisorderedParallel) :
    AMDN.amdn_new obs t ctr =
      .error (.incompatibleObservationToken obs.tokenType .amdn) := by
  simp [AMDN.amdn_new, h]

/-- Witness for C9 at a concrete collection declaring the identity token. -/
theorem c9_incompatible_token_witness :
    AMDN.amdn_new obsC9 0 0 =
      .error (.incompatibleObservationToken TokenType.identityObservation .amdn) :=
  c9_incompatible_token obsC9 0 0 (by decide)

/-- C4 (code bug): `Model.serialize` raises `AttributeError` on every model,
because `json.dumps`'s fallback `lambda o: o.__dict__` is applied to the
builtin `set`s stored in `fluents` and `actions`, and a builtin set has no
`__dict__`; so the serialize→deserialize round trip asserted by the claim
(and by `tests/extract/test_model.py`) never completes. -/
theorem c4_serialize_raises (m : Model) :
    m.serialize = .error .attributeError := rfl

/-- Unfolding equation: a trace with at least two steps. -/
theorem get_post_states_cons_cons (st nxt : Step) (rest2 : List Step) (a : ℕ) :
    get_post_states (st :: nxt :: rest2) a =
      if st.action = some a then
        (get_post_states (nxt :: rest2) a).map (fun l => nxt.state :: l)
      else get_post_states (nxt :: rest2) a := rfl

/-- Unfolding equation: a one-step trace. -/
theorem get_post_states_single (st : Step) (a : ℕ) :
    get_post_states [st] a =
      if st.action = some a then .error .indexError else .ok [] := rfl

/-- Unfolding equation: a trace with at least two steps. -/
theorem get_sas_triples_cons_cons (st nxt : Step) (rest2 : List Step) (a : ℕ) :
    get_sas_triples (st :: nxt :: rest2) a =
      if st.action = some a then
        (get_sas_triples (nxt :: rest2) a).map (fun l => ⟨st.state, a, nxt.state⟩ :: l)
      else get_sas_triples (nxt :: rest2) a := rfl

/-- Unfolding equation: a one-step trace. -/
theorem get_sas_triples_single (st : Step) (a : ℕ) :
    get_sas_triples [st] a =
      if st.action = some a then .error .indexError else .ok [] := rfl

/-- C10: `get_post_states` and `get_sas_triples` return one entry per
occurrence of the queried action exactly when the action never occupies the
final step; when the last step's action is the queried one, the successor
lookup at `i + 1` is out of range and both raise `IndexError`. -/
theorem c10_post_state_queries (tr : List Step) (a : ℕ) :
    (lastActionIs tr a = true →
      get_post_states tr a = .error .indexError ∧
      get_sas_triples tr a = .error .indexError) ∧
    (lastActionIs tr a = false →
      ∃ l l2, get_post_states tr a = .ok l ∧ l.length = occCount tr a ∧
        get_sas_triples tr a = .ok l2 ∧ l2.length = occCount tr a) := by
  induction tr with
  | nil =>
    constructor
    · intro h; simp [lastActionIs] at h
    · intro _; exact ⟨[], [], rfl, rfl, rfl, rfl⟩
  | cons st rest IH =>
    cases rest with
    | nil =>
      by_cases hst : st.action = some a
      · constructor
        · intro _
          rw [get_post_states_single, get_sas_triples_single, if_pos hst, if_pos hst]
          exact ⟨rfl, rfl⟩
        · intro h; simp [lastActionIs, hst] at h
      · constructor
        · intro h; simp [lastActionIs, hst] at h
        · intro _
          refine ⟨[], [], ?_, ?_, ?_, ?_⟩
          · rw [get_post_states_single, if_neg hst]
          · simp [occCount, hst]
          · rw [get_sas_triples_single, if_neg hst]
          · simp [occCount, hst]
    | cons nxt rest2 =>
      have hlast : lastActionIs (st :: nxt :: rest2) a = lastActionIs (nxt :: rest2) a := rfl
      constructor
      · intro h
        rw [hlast] at h
        have hrest := IH.1 h
        rw [get_post_states_cons_cons, get_sas_triples_cons_cons, hrest.1, hrest.2]
        by_cases hst : st.action = some a <;> simp [hst, Except.map]
      · intro h
        rw [hlast] at h
        obtain ⟨l, l2, h1, h2, h3, h4⟩ := IH.2 h
        by_cases hst : st.action = some a
        · refine ⟨nxt.state :: l, ⟨st.state, a, nxt.state⟩ :: l2, ?_, ?_, ?_, ?_⟩
          · rw [get_post_states_cons_cons, if_pos hst, h1]; rfl
          · simp [occCount, hst, h2, Nat.add_comm]
          · rw [get_sas_triples_cons_cons, if_pos hst, h3]; rfl
          · simp [occCount, hst, h4, Nat.add_comm]
        · refine ⟨l, l2, ?_, ?_, ?_, ?_⟩
          · rw [get_post_states_cons_cons, if_neg hst]; exact h1
          · simp [occCount, hst, h2]
          · rw [get_sas_triples_cons_cons, if_neg hst]; exact h3
          · simp [occCount, hst, h4]

/-- C1 (code bug): evaluated on `obsC1` (actions 0 and 1, proposition 0,
one probability entry keyed by the pair (0, 1)), the hard parallel builder
produces the two well-formedness formulas *per probability-table key*, not
per proposition — no formula mentions a proposition-keyed variable — and
stores the numeric weight `WMAX = 1` instead of the `"HARD"` sentinel, so
the aggregator's hard-constraint extraction (`weight == "HARD"`) selects
none of them. -/
theorem c1_hard_parallel_wrong_iteration :
    AMDN.build_hard_parallel_constraints obsC1 =
      [(impliesN (set_add (.pair 0 1) 0) (negV (set_precond (.pair 0 1) 0)), .soft 1),
       (impliesN (set_del (.pair 0 1) 0) (set_precond (.pair 0 1) 0), .soft 1),
       (impliesN (set_add (.pair 0 1) 1) (negV (set_precond (.pair 0 1) 1)), .soft 1),
       (impliesN (set_del (.pair 0 1) 1) (set_precond (.pair 0 1) 1), .soft 1)] ∧
    (AMDN.build_hard_parallel_constraints obsC1).filter
      (fun e => decide (e.2 = Weight.hard)) = [] ∧
    (AMDN.build_hard_parallel_constraints obsC1).all
      (fun e => !nnfHasPropKey e.1) = true := by decide

/-- C2 (code bug): on the two-trace collection `obsC2` the disorder builder
returns constraints mentioning the first trace's action 0 but nothing at
all from the second trace (action 2), because its `return` statement sits
inside the per-trace loop. -/
theorem c2_disorder_first_trace_only : c2Check = true := by decide

/-- C5 counterexample: on `obsC5` the claim requires the ordered/disordered
hypothesis constraints for the second trace's pair (14, 15) and proposition
0 to be registered, whose clauses mention action 14; the builder's result
mentions the first trace's action 10 but nothing mentioning action 14 is
registered. -/
theorem c5_second_trace_unregistered : c5Check = true := by decide

/-- C7 counterexample: with the occurrence threshold -1 (the claim
quantifies over *every* threshold) and a collection with no true
propositions but one action and one proposition, the rule-6 comparison
`0 > -1` succeeds and the weight division `0 / 0` raises
`ZeroDivisionError`. -/
theorem c7_negative_threshold_divzero :
    AMDN.build_noise_constraints obsC7 (-1) = .error .zeroDivisionError := by decide

/-! ## Association-list lemmas -/

theorem assocLookup_set_self {α β : Type} [DecidableEq α] (m : List (α × β)) (k : α) (v : β) :
    assocLookup (assocSet m k v) k = some v := by
  induction m with
  | nil => simp [assocSet, assocLookup]
  | cons e rest IH =>
    by_cases h : e.1 = k
    · simp [assocSet, assocLookup, h]
    · simp [assocSet, assocLookup, h, IH]

theorem assocLookup_set_ne {α β : Type} [DecidableEq α] (m : List (α × β)) (k k2 : α) (v : β)
    (h : k2 ≠ k) : assocLookup (assocSet m k v) k2 = assocLookup m k2 := by
  induction m with
  | nil => simp [assocSet, assocLookup, Ne.symm h]
  | cons e rest IH =>
    by_cases he : e.1 = k
    · subst he
      simp [assocSet, assocLookup, Ne.symm h]
    · by_cases he2 : e.1 = k2
      · simp [assocSet, assocLookup, he, he2, h]
      · simp [assocSet, assocLookup, he, he2, h, IH]

theorem mem_assocSet {α β : Type} [DecidableEq α] {m : List (α × β)} {k : α} {v : β}
    {e : α × β} (he : e ∈ assocSet m k v) : e ∈ m ∨ e = (k, v) := by
  induction m with
  | nil => simp [assocSet] at he; right; exact he
  | cons e0 rest IH =>
    by_cases h : e0.1 = k
    · simp [assocSet, h] at he
      rcases he with rfl | he2
      · right; rfl
      · left; exact List.mem_cons_of_mem _ he2
    · simp [assocSet, h] at he
      rcases he with rfl | he2
      · left; exact List.mem_cons_self _ _
      · rcases IH he2 with h3 | h3
        · left; exact List.mem_cons_of_mem _ h3
        · right; exact h3

theorem mem_assocSet_of_ne {α β : Type} [DecidableEq α] {m : List (α × β)} {k : α} {v : β}
    {e : α × β} (he : e ∈ m) (hne : e.1 ≠ k) : e ∈ assocSet m k v := by
  induction m with
  | nil => cases he
  | cons e0 rest IH =>
    by_cases h : e0.1 = k
    · rcases List.mem_cons.mp he with rfl | he2
      · exact absurd h hne
      · simp [assocSet, h]
        right; exact he2
    · rcases List.mem_cons.mp he with rfl | he2
      · simp [assocSet, h]
      · simp [assocSet, h]
        right; exact IH he2

theorem assocSet_append_of_fresh {α β : Type} [DecidableEq α] {m : List (α × β)} {k : α}
    (v : β) (hk : ∀ e ∈ m, e.1 ≠ k) : assocSet m k v = m ++ [(k, v)] := by
  induction m with
  | nil => rfl
  | cons e0 rest IH =>
    have h0 : e0.1 ≠ k := hk e0 (List.mem_cons_self _ _)
    simp [assocSet, h0]
    exact IH (fun e he => hk e (List.mem_cons_of_mem _ he))

/-- Folding same-valued assignments preserves an existing binding with that
value. -/
theorem foldl_assocSet_pres {α β γ : Type} [DecidableEq α] (kf : γ → α) (v : β) :
    ∀ (l : List γ) (m : List (α × β)) (k : α), assocLookup m k = some v →
      assocLookup (l.foldl (fun acc y => assocSet acc (kf y) v) m) k = some v := by
  intro l
  induction l with
  | nil => intro m k h; exact h
  | cons y rest IH =>
    intro m k h
    apply IH
    by_cases hy : k = kf y
    · subst hy; exact assocLookup_set_self _ _ _
    · rw [assocLookup_set_ne _ _ _ _ hy]; exact h

/-- After folding same-valued assignments over a key list, every listed key
is bound to that value. -/
theorem foldl_assocSet_mem_lookup {α β γ : Type} [DecidableEq α] (kf : γ → α) (v : β) :
    ∀ (l : List γ) (m : List (α × β)) (x : γ), x ∈ l →
      assocLookup (l.foldl (fun acc y => assocSet acc (kf y) v) m) (kf x) = some v := by
  intro l
  induction l with
  | nil => intro m x hx; cases hx
  | cons y rest IH =>
    intro m x hx
    rcases List.mem_cons.mp hx with rfl | hx2
    · exact foldl_assocSet_pres _ _ rest _ _ (assocLookup_set_self _ _ _)
    · exact IH _ _ hx2

/-- Folding assignments leaves every unrelated key untouched. -/
theorem foldl_assocSet_untouched {α β γ : Type} [DecidableEq α] (kf : γ → α) (v : β) :
    ∀ (l : List γ) (m : List (α × β)) (k : α), (∀ y ∈ l, k ≠ kf y) →
      assocLookup (l.foldl (fun acc y => assocSet acc (kf y) v) m) k = assocLookup m k := by
  intro l
  induction l with
  | nil => intro m k _; rfl
  | cons y rest IH =>
    intro m k hk
    rw [List.foldl_cons, IH _ _ (fun y2 hy2 => hk y2 (List.mem_cons_of_mem _ hy2)),
      assocLookup_set_ne _ _ _ _ (hk y (List.mem_cons_self _ _))]

/-! ## Lemmas on `_extract_aux_set_weights` -/

/-- The first pass of `_extract_aux_set_weights` computes its two components
independently. -/
theorem extract_phase1_split :
    ∀ (cnf : List Clause) (s : List ℕ) (m : CMap),
      cnf.foldl
        (fun acc clause =>
          (AMDN.insertAllNew acc.1 (AMDN.clauseAuxVars clause),
           assocSet acc.2 (clauseToNNF clause) Weight.hard)) (s, m) =
      (cnf.foldl (fun s2 c => AMDN.insertAllNew s2 (AMDN.clauseAuxVars c)) s,
       cnf.foldl (fun m2 c => assocSet m2 (clauseToNNF c) Weight.hard) m) := by
  intro cnf
  induction cnf with
  | nil => intro s m; rfl
  | cons c rest IH => intro s m; simp only [List.foldl_cons]; exact IH _ _

/-- `_extract_aux_set_weights` as the composition of a hard pass over the
clauses and a soft pass over the collected auxiliary variables. -/
theorem extract_eq (cnf : List Clause) (m : CMap) (w : ℚ) :
    AMDN.extract_aux_set_weights cnf m w =
      (cnfAuxList cnf).foldl (fun m2 a => assocSet m2 (auxUnit a) (.soft (w * WMAX)))
        (cnf.foldl (fun m2 c => assocSet m2 (clauseToNNF c) Weight.hard) m) := by
  simp only [AMDN.extract_aux_set_weights, extract_phase1_split, cnfAuxList]
  rfl

/-- Decodes an equation between a clause key and an auxiliary unit. -/
theorem clauseToNNF_eq_auxUnit {c : Clause} {a : ℕ} (h : clauseToNNF c = auxUnit a) :
    c = [(.aux a, true)] := by
  unfold clauseToNNF auxUnit at h
  injection h with h2
  cases c with
  | nil => simp at h2
  | cons l rest =>
    simp only [List.map_cons, List.cons.injEq] at h2
    have hrest : rest = [] := by
      have := h2.2
      cases rest with
      | nil => rfl
      | cons _ _ => simp at this
    subst hrest
    have hh := h2.1
    injection hh with hv hp
    cases l
    simp only at hv hp
    simp [hv, hp]

/-- `auxUnit` is injective. -/
theorem auxUnit_inj {a b : ℕ} (h : auxUnit a = auxUnit b) : a = b := by
  unfold auxUnit at h
  injection h with h2
  simp only [List.cons.injEq] at h2
  have := h2.1
  injection this with hv
  injection hv

/-- C6: for every CNF handed over by the conversion step (whose clauses are
never positive auxiliary unit clauses), `_extract_aux_set_weights`
registers every clause as a hard constraint, registers every auxiliary
variable of the CNF as a one-literal soft disjunction carrying the
formula's weight (times `WMAX = 1`), and touches nothing else in the
constraint map. -/
theorem c6_extract_aux_registration (cnf : List Clause) (m : CMap) (w : ℚ)
    (hNoUnit : ∀ c ∈ cnf, isPosAuxUnit c = false) :
    (∀ c ∈ cnf,
      assocLookup (AMDN.extract_aux_set_weights cnf m w) (clauseToNNF c) =
        some Weight.hard) ∧
    (∀ a ∈ cnfAuxList cnf,
      assocLookup (AMDN.extract_aux_set_weights cnf m w) (auxUnit a) =
        some (Weight.soft (w * WMAX))) ∧
    (∀ k, (∀ c ∈ cnf, k ≠ clauseToNNF c) → (∀ a ∈ cnfAuxList cnf, k ≠ auxUnit a) →
      assocLookup (AMDN.extract_aux_set_weights cnf m w) k = assocLookup m k) := by
  rw [extract_eq]
  refine ⟨?_, ?_, ?_⟩
  · intro c hc
    rw [foldl_assocSet_untouched]
    · exact foldl_assocSet_mem_lookup _ _ cnf m c hc
    · intro a _ hEq
      have hu := clauseToNNF_eq_auxUnit hEq
      have : isPosAuxUnit c = true := by rw [hu]; rfl
      rw [hNoUnit c hc] at this
      cases this
  · intro a ha
    exact foldl_assocSet_mem_lookup _ _ _ _ a ha
  · intro k hcl hax
    rw [foldl_assocSet_untouched _ _ _ _ _ hax, foldl_assocSet_untouched _ _ _ _ _ hcl]

/-- Witness for C6 on a concrete CNF produced by converting the ordered
disorder hypothesis for proposition 0 and actions 1, 2, with weight 7/10:
a defining clause ends hard and the first auxiliary variable's unit ends
soft with the weight. -/
theorem c6_extract_aux_registration_witness :
    assocLookup (AMDN.extract_aux_set_weights cnfC6 [] (7/10))
      (clauseToNNF [(.aux 0, false), (.preOf (.prop 0) 1, true)]) = some Weight.hard ∧
    assocLookup (AMDN.extract_aux_set_weights cnfC6 [] (7/10)) (auxUnit 0) =
      some (Weight.soft ((7/10) * WMAX)) := by
  have h := c6_extract_aux_registration cnfC6 [] (7/10) (by decide)
  exact ⟨h.1 _ (by decide), h.2.1 0 (by decide)⟩

/-! ## Lemmas on the auxiliary-variable sets -/

theorem mem_insertNew_self (s : List ℕ) (x : ℕ) : x ∈ AMDN.insertNew s x := by
  unfold AMDN.insertNew
  by_cases h : x ∈ s <;> simp [h]

theorem mem_insertNew_of_mem {s : List ℕ} {x : ℕ} (y : ℕ) (h : x ∈ s) :
    x ∈ AMDN.insertNew s y := by
  unfold AMDN.insertNew
  by_cases hy : y ∈ s <;> simp [hy, h]

theorem mem_insertAllNew_left : ∀ (xs s : List ℕ) (x : ℕ), x ∈ s →
    x ∈ AMDN.insertAllNew s xs := by
  intro xs
  induction xs with
  | nil => intro s x h; exact h
  | cons y rest IH => intro s x h; exact IH _ _ (mem_insertNew_of_mem y h)

theorem mem_insertAllNew_right : ∀ (xs s : List ℕ) (x : ℕ), x ∈ xs →
    x ∈ AMDN.insertAllNew s xs := by
  intro xs
  induction xs with
  | nil => intro s x h; cases h
  | cons y rest IH =>
    intro s x h
    rcases List.mem_cons.mp h with rfl | h2
    · show x ∈ AMDN.insertAllNew (AMDN.insertNew s x) rest
      exact mem_insertAllNew_left _ _ _ (mem_insertNew_self s x)
    · exact IH _ _ h2

theorem insertNew_subset {s : List ℕ} {y x : ℕ} (h : x ∈ AMDN.insertNew s y) :
    x ∈ s ∨ x = y := by
  unfold AMDN.insertNew at h
  by_cases hy : y ∈ s
  · simp [hy] at h; left; exact h
  · simp [hy] at h; exact h

theorem insertAllNew_subset : ∀ (xs s : List ℕ) (x : ℕ), x ∈ AMDN.insertAllNew s xs →
    x ∈ s ∨ x ∈ xs := by
  intro xs
  induction xs with
  | nil => intro s x h; left; exact h
  | cons y rest IH =>
    intro s x h
    rcases IH _ _ h with h2 | h2
    · rcases insertNew_subset h2 with h3 | rfl
      · left; exact h3
      · right; exact List.mem_cons_self _ _
    · right; exact List.mem_cons_of_mem _ h2

theorem mem_foldl_insertAllNew_left :
    ∀ (cnf : List Clause) (s : List ℕ) (a : ℕ), a ∈ s →
      a ∈ cnf.foldl (fun s2 c => AMDN.insertAllNew s2 (AMDN.clauseAuxVars c)) s := by
  intro cnf
  induction cnf with
  | nil => intro s a h; exact h
  | cons c rest IH => intro s a h; exact IH _ _ (mem_insertAllNew_left _ _ _ h)

/-- Any auxiliary variable of any clause of the CNF appears in the collected
set. -/
theorem mem_cnfAuxList {cnf : List Clause} {c : Clause} {a : ℕ} (hc : c ∈ cnf)
    (ha : a ∈ AMDN.clauseAuxVars c) : a ∈ cnfAuxList cnf := by
  suffices hgen : ∀ (cnf2 : List Clause) (s : List ℕ), c ∈ cnf2 →
      a ∈ cnf2.foldl (fun s2 c2 => AMDN.insertAllNew s2 (AMDN.clauseAuxVars c2)) s from
    hgen cnf [] hc
  intro cnf2
  induction cnf2 with
  | nil => intro s h; cases h
  | cons c0 rest IH =>
    intro s h
    rcases List.mem_cons.mp h with rfl | hc2
    · show a ∈ rest.foldl (fun s2 c2 => AMDN.insertAllNew s2 (AMDN.clauseAuxVars c2))
        (AMDN.insertAllNew s (AMDN.clauseAuxVars c))
      exact mem_foldl_insertAllNew_left _ _ _ (mem_insertAllNew_right _ _ _ ha)
    · exact IH _ hc2

/-- Conversely, every collected auxiliary variable stems from some clause. -/
theorem cnfAuxList_subset {cnf : List Clause} {a : ℕ} (h : a ∈ cnfAuxList cnf) :
    ∃ c ∈ cnf, a ∈ AMDN.clauseAuxVars c := by
  unfold cnfAuxList at h
  suffices hgen : ∀ (s : List ℕ),
      a ∈ cnf.foldl (fun s2 c => AMDN.insertAllNew s2 (AMDN.clauseAuxVars c)) s →
      a ∈ s ∨ ∃ c ∈ cnf, a ∈ AMDN.clauseAuxVars c by
    rcases hgen [] h with h2 | h2
    · cases h2
    · exact h2
  clear h
  induction cnf with
  | nil =>
    intro s h; left; exact h
  | cons c0 rest IH =>
    intro s h
    rcases IH _ h with h2 | h2
    · rcases insertAllNew_subset _ _ _ h2 with h3 | h3
      · left; exact h3
      · right; exact ⟨c0, List.mem_cons_self _ _, h3⟩
    · obtain ⟨c, hc, hca⟩ := h2
      right; exact ⟨c, List.mem_cons_of_mem _ hc, hca⟩

/-- Direct lookup of an auxiliary-variable unit after
`_extract_aux_set_weights`. -/
theorem extract_lookup_aux (cnf : List Clause) (m : CMap) (w : ℚ) (a : ℕ)
    (ha : a ∈ cnfAuxList cnf) :
    assocLookup (AMDN.extract_aux_set_weights cnf m w) (auxUnit a) =
      some (Weight.soft (w * WMAX)) := by
  rw [extract_eq]
  exact foldl_assocSet_mem_lookup _ _ _ _ a ha

/-- `_extract_aux_set_weights` leaves unrelated keys untouched. -/
theorem extract_lookup_untouched (cnf : List Clause) (m : CMap) (w : ℚ) (k : NNF)
    (hcl : ∀ c ∈ cnf, k ≠ clauseToNNF c) (hax : ∀ a ∈ cnfAuxList cnf, k ≠ auxUnit a) :
    assocLookup (AMDN.extract_aux_set_weights cnf m w) k = assocLookup m k := by
  rw [extract_eq, foldl_assocSet_untouched _ _ _ _ _ hax,
    foldl_assocSet_untouched _ _ _ _ _ hcl]

/-! ## The disorder step and its weights (C5) -/

/-- Tseitin conversion of the ordered hypothesis, in explicit form. -/
theorem toCNF_orderedHypothesis (r x y ctr : ℕ) :
    toCNF (AMDN.orderedHypothesis r x y) ctr = (orderedCNFex r x y ctr, ctr + 4) := rfl

/-- Tseitin conversion of the disordered hypothesis, in explicit form. -/
theorem toCNF_disorderedHypothesis (r x y ctr : ℕ) :
    toCNF (AMDN.disorderedHypothesis r x y) ctr = (disorderedCNFex r x y ctr, ctr + 4) := rfl

/-- One disorder step in terms of the explicit CNFs: it registers the ordered
hypothesis' conversion with weight `1 - p` and the disordered hypothesis'
conversion (auxiliaries starting at `ctr + 4`) with weight `p`. -/
theorem disorderStep_eq (p : ℚ) (x y r : ℕ) (m : CMap) (ctr : ℕ) :
    AMDN.disorderStep p x y r m ctr =
      (AMDN.extract_aux_set_weights (disorderedCNFex r x y (ctr + 4))
        (AMDN.extract_aux_set_weights (orderedCNFex r x y ctr) m (1 - p)) p,
       ctr + 8) := rfl

/-- C5 (amended to the single trace the builder processes, see C2): each
disorder step registers the ordered hypothesis' auxiliary unit with soft
weight `(1 - p) · WMAX` and the disordered hypothesis' auxiliary unit with
soft weight `p · WMAX`, and the two weights always sum to the per-pair
budget `WMAX`. -/
theorem c5_disorder_weights (p : ℚ) (x y r : ℕ) (m : CMap) (ctr : ℕ) :
    assocLookup (AMDN.disorderStep p x y r m ctr).1 (auxUnit ctr) =
      some (Weight.soft ((1 - p) * WMAX)) ∧
    assocLookup (AMDN.disorderStep p x y r m ctr).1 (auxUnit (ctr + 4)) =
      some (Weight.soft (p * WMAX)) ∧
    (1 - p) * WMAX + p * WMAX = WMAX := by
  rw [disorderStep_eq]
  refine ⟨?_, ?_, ?_⟩
  · have hcl : ∀ c ∈ disorderedCNFex r x y (ctr + 4), auxUnit ctr ≠ clauseToNNF c := by
      intro c hc hEq
      have hc1 := clauseToNNF_eq_auxUnit hEq.symm
      rw [hc1] at hc
      simp [disorderedCNFex] at hc
    have hax : ∀ a ∈ cnfAuxList (disorderedCNFex r x y (ctr + 4)),
        auxUnit ctr ≠ auxUnit a := by
      intro a ha hEq
      have ha2 := auxUnit_inj hEq
      obtain ⟨c, hc, hca⟩ := cnfAuxList_subset ha
      rw [← ha2] at hca
      simp only [disorderedCNFex, List.mem_cons, List.not_mem_nil, or_false] at hc
      rcases hc with rfl | rfl | rfl | rfl | rfl | rfl | rfl | rfl | rfl | rfl | rfl | rfl |
        rfl | rfl <;> simp [AMDN.clauseAuxVars] at hca <;> omega
    rw [extract_lookup_untouched _ _ _ _ hcl hax]
    apply extract_lookup_aux
    exact mem_cnfAuxList (c := [(.preOf (.prop r) x, false), (.delBy (.prop r) x, true),
      (.delBy (.prop r) y, false), (.aux ctr, true)])
      (by simp [orderedCNFex]) (by simp [AMDN.clauseAuxVars])
  · apply extract_lookup_aux
    exact mem_cnfAuxList (c := [(.preOf (.prop r) y, false), (.delBy (.prop r) y, true),
      (.delBy (.prop r) x, false), (.aux (ctr + 4), true)])
      (by simp [disorderedCNFex]) (by simp [AMDN.clauseAuxVars])
  · simp [WMAX]

/-! ## Generic fold lemmas -/

/-- A pure fold whose steps all fix the state returns its initial state. -/
theorem foldl_id_of_steps {σ γ : Type} (f : σ → γ → σ) :
    ∀ (l : List γ) (init : σ), (∀ x ∈ l, ∀ s, f s x = s) → l.foldl f init = init := by
  intro l
  induction l with
  | nil => intro init _; rfl
  | cons x rest IH =>
    intro init h
    rw [List.foldl_cons, h x (List.mem_cons_self _ _)]
    exact IH _ (fun y hy => h y (List.mem_cons_of_mem _ hy))

/-- A pure fold preserves any invariant its steps preserve. -/
theorem foldl_preserve {σ γ : Type} {P : σ → Prop} (f : σ → γ → σ) :
    ∀ (l : List γ) (init : σ), P init → (∀ x ∈ l, ∀ s, P s → P (f s x)) →
      P (l.foldl f init) := by
  intro l
  induction l with
  | nil => intro init h _; exact h
  | cons x rest IH =>
    intro init h hstep
    exact IH _ (hstep x (List.mem_cons_self _ _) init h)
      (fun y hy => hstep y (List.mem_cons_of_mem _ hy))

/-- A monadic fold over `Except` whose steps all succeed with an unchanged
state returns its initial state. -/
theorem foldlM_except_id {σ γ : Type} (step : σ → γ → Except PyErr σ) :
    ∀ (l : List γ) (init : σ), (∀ x ∈ l, ∀ s, step s x = .ok s) →
      l.foldlM step init = .ok init := by
  intro l
  induction l with
  | nil => intro init _; rfl
  | cons x rest IH =>
    intro init h
    rw [List.foldlM_cons, h x (List.mem_cons_self _ _)]
    show rest.foldlM step init = .ok init
    exact IH _ (fun y hy => h y (List.mem_cons_of_mem _ hy))

/-- A monadic fold over `Except` preserves any invariant its successful
steps preserve. -/
theorem foldlM_except_preserve {σ γ : Type} {P : σ → Prop} (step : σ → γ → Except PyErr σ) :
    ∀ (l : List γ) (init : σ), P init →
      (∀ x ∈ l, ∀ s s2, P s → step s x = .ok s2 → P s2) →
      ∀ res, l.foldlM step init = .ok res → P res := by
  intro l
  induction l with
  | nil =>
    intro init h _ res hres
    rw [List.foldlM_nil] at hres
    cases hres
    exact h
  | cons x rest IH =>
    intro init h hstep res hres
    rw [List.foldlM_cons] at hres
    cases hs : step init x with
    | error e => rw [hs] at hres; cases hres
    | ok s1 =>
      rw [hs] at hres
      have h1 : P s1 := hstep x (List.mem_cons_self _ _) init s1 h hs
      exact IH _ h1 (fun y hy => hstep y (List.mem_cons_of_mem _ hy)) res hres

/-- Bind on a successful `Except` computation. -/
theorem except_bind_ok {α β : Type} (a : α) (f : α → Except PyErr β) :
    (Except.ok a >>= f) = f a := rfl

/-- Indexing within bounds returns the positional default-read element. -/
theorem listIndexE_ok {α : Type} {l : List α} {i : ℕ} (d : α) (h : i < l.length) :
    listIndexE l i = .ok (l.getD i d) := by
  unfold listIndexE
  rw [List.getD_eq_get _ _ h, List.get?_eq_get h]

/-- In-bounds default reads are members. -/
theorem getD_mem {α : Type} {l : List α} {i : ℕ} (d : α) (h : i < l.length) :
    l.getD i d ∈ l := by
  rw [List.getD_eq_get _ _ h]
  exact List.get_mem _ _ _

/-! ## The noise builder on occurrence-free input (C7) -/

/-- Every count of the freshly initialized occurrences dict is zero. -/
theorem setup_counts_zero (obs : ObsLists) :
    ∀ e ∈ AMDN.set_up_occurrences_dict obs, ∀ rc ∈ e.2, rc.2 = 0 := by
  unfold AMDN.set_up_occurrences_dict
  have hzero : ∀ rc ∈ obs.propositions.foldl
      (fun inner r => assocSet inner r 0) ([] : List (ℕ × ℕ)), rc.2 = 0 := by
    refine @foldl_preserve _ _ (fun i : List (ℕ × ℕ) => ∀ rc ∈ i, rc.2 = 0) _
      obs.propositions [] ?_ ?_
    · intro rc h; cases h
    · intro r _ s hs rc hrc
      rcases mem_assocSet hrc with h2 | rfl
      · exact hs rc h2
      · rfl
  refine @foldl_preserve _ _ (fun d : AMDN.OccDict => ∀ e ∈ d, ∀ rc ∈ e.2, rc.2 = 0) _
    obs.actions [] ?_ ?_
  · intro e h; cases h
  · intro a _ d hd e he rc hrc
    rcases mem_assocSet he with h2 | rfl
    · exact hd e h2 rc hrc
    · exact hzero rc hrc

/-- With a non-negative threshold, zero counts emit nothing. -/
theorem noiseEmitInner_skip (key : ℕ → ℕ → NNF) (a : ℕ) :
    ∀ (lst : List (ℕ × ℕ)) (allOcc : ℕ) (t : ℤ) (m : CMap), 0 ≤ t →
      (∀ rc ∈ lst, rc.2 = 0) → AMDN.noiseEmitInner key a lst allOcc t m = .ok m := by
  intro lst
  induction lst with
  | nil => intro allOcc t m _ _; rfl
  | cons rc rest IH =>
    intro allOcc t m ht h
    have h0 : rc.2 = 0 := h rc (List.mem_cons_self _ _)
    have hcond : ¬((rc.2 : ℤ) > t) := by rw [h0]; simp; omega
    show (if (rc.2 : ℤ) > t then _ else AMDN.noiseEmitInner key a rest allOcc t m) = .ok m
    rw [if_neg hcond]
    exact IH _ _ _ ht (fun rc2 h2 => h rc2 (List.mem_cons_of_mem _ h2))

/-- With a non-negative threshold, an all-zero occurrences dict emits
nothing. -/
theorem noiseEmitFold_skip (key : ℕ → ℕ → NNF) :
    ∀ (d : AMDN.OccDict) (allOcc : ℕ) (t : ℤ) (m : CMap), 0 ≤ t →
      (∀ e ∈ d, ∀ rc ∈ e.2, rc.2 = 0) → AMDN.noiseEmitFold key d allOcc t m = .ok m := by
  intro d
  induction d with
  | nil => intro allOcc t m _ _; rfl
  | cons e rest IH =>
    intro allOcc t m ht h
    show (AMDN.noiseEmitInner key e.1 e.2 allOcc t m >>= fun m1 =>
      AMDN.noiseEmitFold key rest allOcc t m1) = .ok m
    rw [noiseEmitInner_skip key e.1 e.2 allOcc t m ht (h e (List.mem_cons_self _ _))]
    show AMDN.noiseEmitFold key rest allOcc t m = .ok m
    exact IH _ _ _ ht (fun e2 h2 => h e2 (List.mem_cons_of_mem _ h2))

/-- C7 (amended to non-negative thresholds, see the counterexample): when no
token state and no trace state holds any true proposition, the total
occurrence count is zero and the noise constraint builder returns an empty
constraint map without raising any division fault. -/
theorem c7_no_noise_on_empty_occurrences (obs : ObsLists) (t : ℤ)
    (ht : 0 ≤ t) (hWF : statesWF obs)
    (hTok : ∀ tr ∈ obs.tokens, ∀ st ∈ tr, trueFluents st.state = [])
    (hSt : ∀ tr ∈ obs.states, ∀ s ∈ tr, trueFluents s = []) :
    AMDN.calculate_all_r_occ obs = 0 ∧
    AMDN.build_noise_constraints obs t = .ok [] := by
  have hcalc : AMDN.calculate_all_r_occ obs = 0 := by
    unfold AMDN.calculate_all_r_occ
    apply foldl_id_of_steps
    intro tr htr acc
    apply foldl_id_of_steps
    intro st hst acc2
    rw [hTok tr htr st hst]
    rfl
  refine ⟨hcalc, ?_⟩
  have hfill6 : AMDN.rule6Fill obs = .ok (AMDN.set_up_occurrences_dict obs) := by
    unfold AMDN.rule6Fill
    apply foldlM_except_id
    intro trace htr d
    apply foldlM_except_id
    intro j hj d2
    have hj2 : j + 1 < trace.length := by
      have := List.mem_range.mp hj; omega
    rw [hTok trace htr _ (getD_mem defaultTok hj2)]
    rfl
  have hfill8 : AMDN.rule8Fill obs = .ok (AMDN.set_up_occurrences_dict obs) := by
    unfold AMDN.rule8Fill
    apply foldlM_except_id
    intro trace htr d
    apply foldlM_except_id
    intro j hj d2
    have hj2 : j < trace.length := List.mem_range.mp hj
    rw [hTok trace htr _ (getD_mem defaultTok hj2)]
    rfl
  have h6 : AMDN.noise_constraints_6 obs (AMDN.calculate_all_r_occ obs) t = .ok [] := by
    unfold AMDN.noise_constraints_6
    rw [hfill6]
    show AMDN.noiseEmitFold AMDN.rule6Key (AMDN.set_up_occurrences_dict obs)
      (AMDN.calculate_all_r_occ obs) t [] = .ok []
    exact noiseEmitFold_skip _ _ _ _ _ ht (setup_counts_zero obs)
  have h8 : AMDN.noise_constraints_8 obs (AMDN.calculate_all_r_occ obs) t = .ok [] := by
    unfold AMDN.noise_constraints_8
    rw [hfill8]
    show AMDN.noiseEmitFold AMDN.rule8Key (AMDN.set_up_occurrences_dict obs)
      (AMDN.calculate_all_r_occ obs) t [] = .ok []
    exact noiseEmitFold_skip _ _ _ _ _ ht (setup_counts_zero obs)
  have hfill7 : AMDN.rule7Fill obs =
      .ok (obs.propositions.foldl (fun d r => assocSet d r 0) ([] : List (ℕ × ℕ))) := by
    unfold AMDN.rule7Fill
    apply foldlM_except_id
    intro trace htr d
    apply foldlM_except_id
    intro state hstate d2
    rw [hSt trace htr state hstate]
    rfl
  have hmain7 : ∀ occ2 : List (ℕ × ℕ),
      AMDN.rule7Main obs occ2 (AMDN.calculate_all_r_occ obs) = .ok [] := by
    intro occ2
    unfold AMDN.rule7Main
    apply foldlM_except_id
    intro i hi m
    have hi2 : i < obs.all_par_act_sets.length := List.mem_range.mp hi
    have hi3 : i < obs.states.length := Nat.lt_of_lt_of_le hi2 hWF.1
    rw [listIndexE_ok [] hi3]
    simp only [except_bind_ok]
    apply foldlM_except_id
    intro j hj m2
    have hj2 : j < (obs.all_par_act_sets.getD i []).length := List.mem_range.mp hj
    have hj3 : j + 1 < (obs.states.getD i []).length := by
      have := hWF.2 i (List.mem_range.mpr hi2)
      omega
    rw [listIndexE_ok [] hj3]
    simp only [except_bind_ok]
    rw [hSt _ (getD_mem [] hi3) _ (getD_mem [] hj3)]
    rfl
  have h7 : AMDN.noise_constraints_7 obs (AMDN.calculate_all_r_occ obs) = .ok [] := by
    unfold AMDN.noise_constraints_7
    rw [hfill7]
    show AMDN.rule7Main obs
      (obs.propositions.foldl (fun d r => assocSet d r 0) ([] : List (ℕ × ℕ)))
      (AMDN.calculate_all_r_occ obs) = .ok []
    exact hmain7 _
  show (do
    let m6 ← AMDN.noise_constraints_6 obs (AMDN.calculate_all_r_occ obs) t
    let m7 ← AMDN.noise_constraints_7 obs (AMDN.calculate_all_r_occ obs)
    let m8 ← AMDN.noise_constraints_8 obs (AMDN.calculate_all_r_occ obs) t
    pure (mapMerge (mapMerge m6 m7) m8) : Except PyErr CMap) = .ok []
  rw [h6, h7, h8]
  rfl

/-- Witness for C7 on a concrete occurrence-free one-trace collection with
threshold 0. -/
theorem c7_no_noise_on_empty_occurrences_witness :
    AMDN.calculate_all_r_occ obsC7w = 0 ∧
    AMDN.build_noise_constraints obsC7w 0 = .ok [] :=
  c7_no_noise_on_empty_occurrences obsC7w 0 (by norm_num)
    ⟨by decide, by decide⟩ (by decide) (by decide)

/-! ## Threshold monotonicity of the rule-6 and rule-8 emitters (C8) -/

/-- Bind on a failed `Except` computation. -/
theorem except_bind_error {α β : Type} (e : PyErr) (f : α → Except PyErr β) :
    ((Except.error e : Except PyErr α) >>= f) = .error e := rfl

/-- The key of an entry of a map with no binding for `k` differs from `k`. -/
theorem fresh_ne_key {α β : Type} {m : List (α × β)} {k : α}
    (hf : ∀ v, (k, v) ∉ m) {e : α × β} (he : e ∈ m) : e.1 ≠ k := by
  intro hEq
  apply hf e.2
  rw [← hEq, Prod.mk.eta]
  exact he

/-- Overwriting always leaves the new binding in the map. -/
theorem mem_assocSet_self {α β : Type} [DecidableEq α] (m : List (α × β)) (k : α) (v : β) :
    (k, v) ∈ assocSet m k v := by
  induction m with
  | nil => simp [assocSet]
  | cons e rest IH =>
    by_cases he : e.1 = k
    · simp [assocSet, he]
    · simp [assocSet, he]
      right; exact IH

/-- A successful dict lookup yields a member. -/
theorem assocLookup_mem {α β : Type} [DecidableEq α] {m : List (α × β)} {k : α} {v : β}
    (h : assocLookup m k = some v) : (k, v) ∈ m := by
  induction m with
  | nil => cases h
  | cons e rest IH =>
    by_cases he : e.1 = k
    · rw [assocLookup, if_pos he] at h
      injection h with h2
      have hkv : (k, v) = e := by rw [← he, ← h2]
      rw [hkv]
      exact List.mem_cons_self _ _
    · rw [assocLookup, if_neg he] at h
      exact List.mem_cons_of_mem _ (IH h)

/-- A successful `m[k]` read means `assocLookup` found the value. -/
theorem assocGetE_ok {α β : Type} [DecidableEq α] {m : List (α × β)} {k : α} {v : β}
    (h : assocGetE m k = .ok v) : assocLookup m k = some v := by
  unfold assocGetE at h
  cases hl : assocLookup m k with
  | none => rw [hl] at h; cases h
  | some v2 => rw [hl] at h; injection h with h2; rw [h2]

theorem keys_assocSet_subset {α β : Type} [DecidableEq α] {m : List (α × β)} {k : α} {v : β}
    {x : α} (h : x ∈ (assocSet m k v).map Prod.fst) : x ∈ m.map Prod.fst ∨ x = k := by
  rcases List.mem_map.mp h with ⟨e, he, rfl⟩
  rcases mem_assocSet he with h2 | rfl
  · left; exact List.mem_map_of_mem _ h2
  · right; rfl

theorem nodup_keys_assocSet {α β : Type} [DecidableEq α] {m : List (α × β)} (k : α) (v : β)
    (h : (m.map Prod.fst).Nodup) : ((assocSet m k v).map Prod.fst).Nodup := by
  induction m with
  | nil => simp [assocSet]
  | cons e rest IH =>
    by_cases he : e.1 = k
    · subst he
      simp only [assocSet, if_pos rfl, List.map_cons]
      simpa using h
    · simp only [assocSet, if_neg he, List.map_cons, List.nodup_cons] at h ⊢
      refine ⟨?_, IH h.2⟩
      intro hmem
      rcases keys_assocSet_subset hmem with h2 | h2
      · exact h.1 h2
      · exact he h2

/-- `occurrences[a][r] += 1` preserves the structural invariant. -/
theorem occInc_WF {d : AMDN.OccDict} {a : Option ℕ} {r : ℕ} {d2 : AMDN.OccDict}
    (h : AMDN.occInc d a r = .ok d2) (hwf : OccWF d) : OccWF d2 := by
  cases a with
  | none => simp [AMDN.occInc] at h
  | some act =>
    simp only [AMDN.occInc] at h
    cases hg1 : assocGetE d act with
    | error e => rw [hg1, except_bind_error] at h; cases h
    | ok inner =>
      rw [hg1, except_bind_ok] at h
      cases hg2 : assocGetE inner r with
      | error e => rw [hg2, except_bind_error] at h; cases h
      | ok c =>
        rw [hg2, except_bind_ok] at h
        cases h
        have hinner : (inner.map Prod.fst).Nodup :=
          hwf.2 (act, inner) (assocLookup_mem (assocGetE_ok hg1))
        constructor
        · exact nodup_keys_assocSet _ _ hwf.1
        · intro e he
          rcases mem_assocSet he with h2 | rfl
          · exact hwf.2 e h2
          · exact nodup_keys_assocSet _ _ hinner

/-- The freshly initialized occurrences dict satisfies the invariant. -/
theorem setup_WF (obs : ObsLists) : OccWF (AMDN.set_up_occurrences_dict obs) := by
  unfold AMDN.set_up_occurrences_dict
  have hzeroKeys : ((obs.propositions.foldl (fun inner r => assocSet inner r 0)
      ([] : List (ℕ × ℕ))).map Prod.fst).Nodup := by
    refine @foldl_preserve _ _ (fun i : List (ℕ × ℕ) => (i.map Prod.fst).Nodup) _
      obs.propositions [] ?_ ?_
    · simp
    · intro r _ s hs; exact nodup_keys_assocSet _ _ hs
  refine @foldl_preserve _ _ OccWF _ obs.actions [] ?_ ?_
  · exact ⟨by simp, by intro e h; cases h⟩
  · intro a _ d hd
    constructor
    · exact nodup_keys_assocSet _ _ hd.1
    · intro e he
      rcases mem_assocSet he with h2 | rfl
      · exact hd.2 e h2
      · exact hzeroKeys

/-- Both counting loops preserve the invariant. -/
theorem rule6Fill_WF {obs : ObsLists} {occ : AMDN.OccDict}
    (h : AMDN.rule6Fill obs = .ok occ) : OccWF occ := by
  unfold AMDN.rule6Fill at h
  refine foldlM_except_preserve _ _ _ (setup_WF obs) ?_ occ h
  intro trace _ d d2 hP hstep
  refine foldlM_except_preserve _ _ _ hP ?_ d2 hstep
  intro j _ d3 d4 hP3 hstep3
  refine foldlM_except_preserve _ _ _ hP3 ?_ d4 hstep3
  intro r _ d5 d6 hP5 hstep5
  exact occInc_WF hstep5 hP5

theorem rule8Fill_WF {obs : ObsLists} {occ : AMDN.OccDict}
    (h : AMDN.rule8Fill obs = .ok occ) : OccWF occ := by
  unfold AMDN.rule8Fill at h
  refine foldlM_except_preserve _ _ _ (setup_WF obs) ?_ occ h
  intro trace _ d d2 hP hstep
  refine foldlM_except_preserve _ _ _ hP ?_ d2 hstep
  intro j _ d3 d4 hP3 hstep3
  refine foldlM_except_preserve _ _ _ hP3 ?_ d4 hstep3
  intro r _ d5 d6 hP5 hstep5
  exact occInc_WF hstep5 hP5

/-- Everything the inner emitter adds is keyed by the action at hand. -/
theorem noiseEmitInner_mem (key : ℕ → ℕ → NNF) (a : ℕ) :
    ∀ (lst : List (ℕ × ℕ)) (allOcc : ℕ) (t : ℤ) (m m2 : CMap),
      AMDN.noiseEmitInner key a lst allOcc t m = .ok m2 →
      ∀ e ∈ m2, e ∈ m ∨ ∃ rc ∈ lst, e.1 = key rc.1 a := by
  intro lst
  induction lst with
  | nil =>
    intro allOcc t m m2 h e he
    cases h
    left; exact he
  | cons rc rest IH =>
    intro allOcc t m m2 h e he
    simp only [AMDN.noiseEmitInner] at h
    by_cases hc : (rc.2 : ℤ) > t
    · rw [if_pos hc] at h
      cases hsd : safeDiv (rc.2 : ℚ) (allOcc : ℚ) with
      | error er => rw [hsd, except_bind_error] at h; cases h
      | ok w =>
        rw [hsd, except_bind_ok] at h
        rcases IH _ _ _ _ h e he with h2 | ⟨rc2, hrc2, hkey⟩
        · rcases mem_assocSet h2 with h3 | rfl
          · left; exact h3
          · right; exact ⟨rc, List.mem_cons_self _ _, rfl⟩
        · right; exact ⟨rc2, List.mem_cons_of_mem _ hrc2, hkey⟩
    · rw [if_neg hc] at h
      rcases IH _ _ _ _ h e he with h2 | ⟨rc2, hrc2, hkey⟩
      · left; exact h2
      · right; exact ⟨rc2, List.mem_cons_of_mem _ hrc2, hkey⟩

/-- Raising the threshold can only shrink what the inner emitter adds. -/
theorem noiseEmitInner_monotone (key : ℕ → ℕ → NNF) (a : ℕ)
    (hkinj : ∀ r1 r2, key r1 a = key r2 a → r1 = r2) :
    ∀ (lst : List (ℕ × ℕ)) (allOcc : ℕ) (t1 t2 : ℤ), t1 ≤ t2 →
      ∀ (m1 m2 m1' m2' : CMap),
        (lst.map Prod.fst).Nodup →
        (∀ e ∈ m2, e ∈ m1) →
        (∀ rc ∈ lst, ∀ v, (key rc.1 a, v) ∉ m1) →
        (∀ rc ∈ lst, ∀ v, (key rc.1 a, v) ∉ m2) →
        AMDN.noiseEmitInner key a lst allOcc t1 m1 = .ok m1' →
        AMDN.noiseEmitInner key a lst allOcc t2 m2 = .ok m2' →
        ∀ e ∈ m2', e ∈ m1' := by
  intro lst
  induction lst with
  | nil =>
    intro allOcc t1 t2 _ m1 m2 m1' m2' _ hsub _ _ h1 h2
    cases h1; cases h2; exact hsub
  | cons rc rest IH =>
    intro allOcc t1 t2 hle m1 m2 m1' m2' hnd hsub hf1 hf2 h1 h2
    simp only [List.map_cons, List.nodup_cons] at hnd
    have hndr : (rest.map Prod.fst).Nodup := hnd.2
    have hrc1 : rc.1 ∉ rest.map Prod.fst := hnd.1
    have hfreshStep : ∀ (m : CMap) (w : ℚ), (∀ rc2 ∈ rc :: rest, ∀ v,
        (key rc2.1 a, v) ∉ m) → ∀ rc2 ∈ rest, ∀ v,
        (key rc2.1 a, v) ∉ assocSet m (key rc.1 a) (Weight.soft w) := by
      intro m w hf rc2 h2m v hv
      rcases mem_assocSet hv with hv2 | hv3
      · exact hf rc2 (List.mem_cons_of_mem _ h2m) v hv2
      · have hkeq : key rc2.1 a = key rc.1 a := congrArg Prod.fst hv3
        have hr : rc2.1 = rc.1 := hkinj _ _ hkeq
        apply hrc1
        rw [← hr]
        exact List.mem_map_of_mem _ h2m
    simp only [AMDN.noiseEmitInner] at h1 h2
    by_cases hc2 : (rc.2 : ℤ) > t2
    · have hc1 : (rc.2 : ℤ) > t1 := by omega
      rw [if_pos hc1] at h1
      rw [if_pos hc2] at h2
      cases hsd : safeDiv (rc.2 : ℚ) (allOcc : ℚ) with
      | error er => rw [hsd, except_bind_error] at h1; cases h1
      | ok w =>
        rw [hsd, except_bind_ok] at h1 h2
        refine IH allOcc t1 t2 hle _ _ m1' m2' hndr ?_ ?_ ?_ h1 h2
        · intro e he
          rcases mem_assocSet he with he2 | rfl
          · exact mem_assocSet_of_ne (hsub e he2)
              (fresh_ne_key (hf2 rc (List.mem_cons_self _ _)) he2)
          · exact mem_assocSet_self _ _ _
        · exact hfreshStep m1 w hf1
        · exact hfreshStep m2 w hf2
    · by_cases hc1 : (rc.2 : ℤ) > t1
      · rw [if_pos hc1] at h1
        rw [if_neg hc2] at h2
        cases hsd : safeDiv (rc.2 : ℚ) (allOcc : ℚ) with
        | error er => rw [hsd, except_bind_error] at h1; cases h1
        | ok w =>
          rw [hsd, except_bind_ok] at h1
          refine IH allOcc t1 t2 hle _ _ m1' m2' hndr ?_ ?_ ?_ h1 h2
          · intro e he
            exact mem_assocSet_of_ne (hsub e he)
              (fresh_ne_key (hf2 rc (List.mem_cons_self _ _)) he)
          · exact hfreshStep m1 w hf1
          · intro rc2 h2m v hv
            exact hf2 rc2 (List.mem_cons_of_mem _ h2m) v hv
      · rw [if_neg hc1] at h1
        rw [if_neg hc2] at h2
        exact IH allOcc t1 t2 hle m1 m2 m1' m2' hndr hsub
          (fun rc2 h2m v => hf1 rc2 (List.mem_cons_of_mem _ h2m) v)
          (fun rc2 h2m v => hf2 rc2 (List.mem_cons_of_mem _ h2m) v) h1 h2

/-- Raising the threshold can only shrink the emitted constraint map. -/
theorem noiseEmitFold_monotone (key : ℕ → ℕ → NNF)
    (hkinj : ∀ r1 a1 r2 a2, key r1 a1 = key r2 a2 → r1 = r2 ∧ a1 = a2) :
    ∀ (d : AMDN.OccDict) (allOcc : ℕ) (t1 t2 : ℤ), t1 ≤ t2 →
      ∀ (m1 m2 m1' m2' : CMap),
        (d.map Prod.fst).Nodup →
        (∀ en ∈ d, (en.2.map Prod.fst).Nodup) →
        (∀ e ∈ m2, e ∈ m1) →
        (∀ en ∈ d, ∀ rc ∈ en.2, ∀ v, (key rc.1 en.1, v) ∉ m1) →
        (∀ en ∈ d, ∀ rc ∈ en.2, ∀ v, (key rc.1 en.1, v) ∉ m2) →
        AMDN.noiseEmitFold key d allOcc t1 m1 = .ok m1' →
        AMDN.noiseEmitFold key d allOcc t2 m2 = .ok m2' →
        ∀ e ∈ m2', e ∈ m1' := by
  intro d
  induction d with
  | nil =>
    intro allOcc t1 t2 _ m1 m2 m1' m2' _ _ hsub _ _ h1 h2
    cases h1; cases h2; exact hsub
  | cons en rest IH =>
    intro allOcc t1 t2 hle m1 m2 m1' m2' hndK hndV hsub hf1 hf2 h1 h2
    simp only [List.map_cons, List.nodup_cons] at hndK
    simp only [AMDN.noiseEmitFold] at h1 h2
    cases hi1 : AMDN.noiseEmitInner key en.1 en.2 allOcc t1 m1 with
    | error er => rw [hi1, except_bind_error] at h1; cases h1
    | ok m1m =>
      cases hi2 : AMDN.noiseEmitInner key en.1 en.2 allOcc t2 m2 with
      | error er => rw [hi2, except_bind_error] at h2; cases h2
      | ok m2m =>
        rw [hi1, except_bind_ok] at h1
        rw [hi2, except_bind_ok] at h2
        have hsub' : ∀ e ∈ m2m, e ∈ m1m :=
          noiseEmitInner_monotone key en.1 (fun r1 r2 hEq => (hkinj _ _ _ _ hEq).1)
            en.2 allOcc t1 t2 hle m1 m2 m1m m2m
            (hndV en (List.mem_cons_self _ _)) hsub
            (fun rc hrc v => hf1 en (List.mem_cons_self _ _) rc hrc v)
            (fun rc hrc v => hf2 en (List.mem_cons_self _ _) rc hrc v) hi1 hi2
    -- freshness of the remaining entries, after the head entry's insertions
        have hfresh' : ∀ (m mm : CMap) (t : ℤ),
            AMDN.noiseEmitInner key en.1 en.2 allOcc t m = .ok mm →
            (∀ en2 ∈ en :: rest, ∀ rc ∈ en2.2, ∀ v, (key rc.1 en2.1, v) ∉ m) →
            ∀ en2 ∈ rest, ∀ rc ∈ en2.2, ∀ v, (key rc.1 en2.1, v) ∉ mm := by
          intro m mm t hi hf en2 hen2 rc hrc v hv
          rcases noiseEmitInner_mem key en.1 en.2 allOcc t m mm hi _ hv with hv2 |
            ⟨rc2, _, hkeq⟩
          · exact hf en2 (List.mem_cons_of_mem _ hen2) rc hrc v hv2
          · have ha : en2.1 = en.1 := (hkinj _ _ _ _ hkeq).2
            apply hndK.1
            rw [← ha]
            exact List.mem_map_of_mem _ hen2
        exact IH allOcc t1 t2 hle m1m m2m m1' m2' hndK.2
          (fun en2 h2e => hndV en2 (List.mem_cons_of_mem _ h2e)) hsub'
          (hfresh' m1 m1m t1 hi1 hf1) (hfresh' m2 m2m t2 hi2 hf2) h1 h2

/-- The rule-6 constraint key determines its proposition and action. -/
theorem rule6Key_inj (r1 a1 r2 a2 : ℕ) (h : AMDN.rule6Key r1 a1 = AMDN.rule6Key r2 a2) :
    r1 = r2 ∧ a1 = a2 := by
  simp only [AMDN.rule6Key, AMDN.or_refactor, negV, set_del] at h
  injection h with h2
  simp only [List.cons.injEq, and_true] at h2
  injection h2 with h4 h5
  injection h4 with h6 h7
  injection h6 with h8
  exact ⟨h8, h7⟩

/-- The rule-8 constraint key determines its proposition and action. -/
theorem rule8Key_inj (r1 a1 r2 a2 : ℕ) (h : AMDN.rule8Key r1 a1 = AMDN.rule8Key r2 a2) :
    r1 = r2 ∧ a1 = a2 := by
  simp only [AMDN.rule8Key, AMDN.or_refactor, set_precond] at h
  injection h with h2
  simp only [List.cons.injEq, and_true] at h2
  injection h2 with h4 h5
  injection h4 with h6 h7
  injection h6 with h8
  exact ⟨h8, h7⟩

/-- C8: for thresholds `t1 ≤ t2`, every constraint the rule-6 builder emits
at `t2` is also emitted at `t1` (with the same weight), and likewise for
the rule-8 builder: raising the threshold only removes constraints. -/
theorem c8_threshold_monotone (obs : ObsLists) (allOcc : ℕ) (t1 t2 : ℤ) (hle : t1 ≤ t2)
    (m1 m2 n1 n2 : CMap)
    (h61 : AMDN.noise_constraints_6 obs allOcc t1 = .ok m1)
    (h62 : AMDN.noise_constraints_6 obs allOcc t2 = .ok m2)
    (h81 : AMDN.noise_constraints_8 obs allOcc t1 = .ok n1)
    (h82 : AMDN.noise_constraints_8 obs allOcc t2 = .ok n2) :
    (∀ e ∈ m2, e ∈ m1) ∧ (∀ e ∈ n2, e ∈ n1) := by
  constructor
  · unfold AMDN.noise_constraints_6 at h61 h62
    cases hf : AMDN.rule6Fill obs with
    | error er => rw [hf, except_bind_error] at h61; cases h61
    | ok occ =>
      rw [hf, except_bind_ok] at h61 h62
      have hwf := rule6Fill_WF hf
      exact noiseEmitFold_monotone AMDN.rule6Key rule6Key_inj occ allOcc t1 t2 hle
        [] [] m1 m2 hwf.1 hwf.2 (fun e he => he)
        (fun en _ rc _ v hv => (List.not_mem_nil _ hv))
        (fun en _ rc _ v hv => (List.not_mem_nil _ hv)) h61 h62
  · unfold AMDN.noise_constraints_8 at h81 h82
    cases hf : AMDN.rule8Fill obs with
    | error er => rw [hf, except_bind_error] at h81; cases h81
    | ok occ =>
      rw [hf, except_bind_ok] at h81 h82
      have hwf := rule8Fill_WF hf
      exact noiseEmitFold_monotone AMDN.rule8Key rule8Key_inj occ allOcc t1 t2 hle
        [] [] n1 n2 hwf.1 hwf.2 (fun e he => he)
        (fun en _ rc _ v hv => (List.not_mem_nil _ hv))
        (fun en _ rc _ v hv => (List.not_mem_nil _ hv)) h81 h82

/-- Witness for C8 on `obsC8` with thresholds 0 ≤ 1: the rule-6 map shrinks
from one entry to none and the rule-8 map keeps its entry. -/
theorem c8_threshold_monotone_witness :
    AMDN.noise_constraints_6 obsC8 2 0 = .ok [(AMDN.rule6Key 0 0, .soft (1/2))] ∧
    AMDN.noise_constraints_6 obsC8 2 1 = .ok [] ∧
    AMDN.noise_constraints_8 obsC8 2 0 = .ok [(AMDN.rule8Key 0 0, .soft 1)] ∧
    AMDN.noise_constraints_8 obsC8 2 1 = .ok [(AMDN.rule8Key 0 0, .soft 1)] ∧
    (AMDN.rule8Key 0 0, Weight.soft 1) ∈ ([(AMDN.rule8Key 0 0, Weight.soft 1)] : CMap) := by
  have e1 : AMDN.noise_constraints_6 obsC8 2 0 = .ok [(AMDN.rule6Key 0 0, .soft (1/2))] := by
    with_unfolding_all decide
  have e2 : AMDN.noise_constraints_6 obsC8 2 1 = .ok [] := by
    with_unfolding_all decide
  have e3 : AMDN.noise_constraints_8 obsC8 2 0 = .ok [(AMDN.rule8Key 0 0, .soft 1)] := by
    with_unfolding_all decide
  have e4 : AMDN.noise_constraints_8 obsC8 2 1 = .ok [(AMDN.rule8Key 0 0, .soft 1)] := by
    with_unfolding_all decide
  have h := c8_threshold_monotone obsC8 2 0 1 (by norm_num) _ _ _ _ e1 e2 e3 e4
  exact ⟨e1, e2, e3, e4, h.2 _ (List.mem_cons_self _ _)⟩

/-! ## Non-negativity of the soft weights and the sentinel (C3) -/

/-- Assigning a non-negative (or hard) value preserves `SoftNonneg`. -/
theorem softNonneg_assocSet {m : CMap} {k : NNF} {v : Weight} (hm : SoftNonneg m)
    (hv : ∀ w, v = Weight.soft w → 0 ≤ w) : SoftNonneg (assocSet m k v) := by
  intro e he w hw
  rcases mem_assocSet he with h2 | rfl
  · exact hm e h2 w hw
  · exact hv w hw

/-- `_extract_aux_set_weights` with a non-negative weight preserves
`SoftNonneg`. -/
theorem softNonneg_extract {cnf : List Clause} {m : CMap} {pd : ℚ} (hm : SoftNonneg m)
    (hpd : 0 ≤ pd) : SoftNonneg (AMDN.extract_aux_set_weights cnf m pd) := by
  rw [extract_eq]
  have h1 : SoftNonneg (cnf.foldl (fun m2 c => assocSet m2 (clauseToNNF c) Weight.hard) m) := by
    refine @foldl_preserve _ _ SoftNonneg _ cnf m hm ?_
    intro c _ s hs
    exact softNonneg_assocSet hs (fun w hw => by cases hw)
  refine @foldl_preserve _ _ SoftNonneg _ (cnfAuxList cnf) _ h1 ?_
  intro a _ s hs
  refine softNonneg_assocSet hs ?_
  intro w hw
  injection hw with hw2
  rw [← hw2]
  have : (0 : ℚ) ≤ WMAX := by norm_num [WMAX]
  exact mul_nonneg hpd this

/-- A looked-up probability inherits the table's bounds. -/
theorem lookupProb_bounds {table : List ((ℕ × ℕ) × ℚ)} {x y : ℕ} {p : ℚ}
    (h : lookupProb table x y = .ok p) (hp : ∀ e ∈ table, 0 ≤ e.2 ∧ e.2 ≤ 1) :
    0 ≤ p ∧ p ≤ 1 := by
  unfold lookupProb at h
  cases hfind : table.find? (fun e => (decide (e.1.1 = x) && decide (e.1.2 = y)) ||
      (decide (e.1.1 = y) && decide (e.1.2 = x))) with
  | none => rw [hfind] at h; cases h
  | some e =>
    rw [hfind] at h
    injection h with h2
    rw [← h2]
    exact hp e (List.mem_of_find?_eq_some hfind)

/-- The disorder step preserves `SoftNonneg` for in-range probabilities. -/
theorem disorderStep_soft {p : ℚ} (hp0 : 0 ≤ p) (hp1 : p ≤ 1) (x y r : ℕ) {m : CMap}
    (ctr : ℕ) (hm : SoftNonneg m) : SoftNonneg (AMDN.disorderStep p x y r m ctr).1 := by
  simp only [AMDN.disorderStep]
  exact softNonneg_extract (softNonneg_extract hm (by linarith)) hp0

/-- One soft-parallel registration preserves `SoftNonneg`. -/
theorem softParStep_soft {w : ℚ} (hw : 0 ≤ w) (a b r : ℕ) {m : CMap} (ctr : ℕ)
    (hm : SoftNonneg m) : SoftNonneg (AMDN.softParStep w a b r m ctr).1 := by
  simp only [AMDN.softParStep]
  exact softNonneg_extract hm hw

/-- The disorder builder's per-trace loop preserves `SoftNonneg`. -/
theorem disorderTrace_soft {obs : ObsLists}
    (hp : ∀ e ∈ obs.probabilities, 0 ≤ e.2 ∧ e.2 ≤ 1) (par : List (List ℕ)) :
    ∀ (st res : CMap × ℕ), SoftNonneg st.1 →
      AMDN.disorderTrace obs par st = .ok res → SoftNonneg res.1 := by
  intro st res hst h
  unfold AMDN.disorderTrace at h
  refine @foldlM_except_preserve _ _ (fun s : CMap × ℕ => SoftNonneg s.1) _ _ _ hst ?_ res h
  intro j _ s1 s2 hP1 hstep1
  refine @foldlM_except_preserve _ _ (fun s : CMap × ℕ => SoftNonneg s.1) _ _ _ hP1 ?_ s2 hstep1
  intro x _ s3 s4 hP3 hstep3
  refine @foldlM_except_preserve _ _ (fun s : CMap × ℕ => SoftNonneg s.1) _ _ _ hP3 ?_ s4 hstep3
  intro y _ s5 s6 hP5 hstep5
  by_cases hxy : x ≠ y
  · rw [if_pos hxy] at hstep5
    cases hlp : lookupProb obs.probabilities x y with
    | error er => rw [hlp, except_bind_error] at hstep5; cases hstep5
    | ok p =>
      rw [hlp, except_bind_ok] at hstep5
      cases hstep5
      have hb := lookupProb_bounds hlp hp
      refine @foldl_preserve _ _ (fun s : CMap × ℕ => SoftNonneg s.1) _
        obs.propositions s5 hP5 ?_
      intro r _ s7 hs7
      exact disorderStep_soft hb.1 hb.2 x y r s7.2 hs7
  · rw [if_neg hxy] at hstep5
    cases hstep5
    exact hP5

/-- All constraints the disorder builder registers have non-negative soft
weights. -/
theorem build_disorder_soft {obs : ObsLists} {dm : CMap} {c : ℕ} {ctr : ℕ}
    (hp : ∀ e ∈ obs.probabilities, 0 ≤ e.2 ∧ e.2 ≤ 1)
    (h : AMDN.build_disorder_constraints obs ctr = .ok (some (dm, c))) :
    SoftNonneg dm := by
  cases hpar : obs.all_par_act_sets with
  | nil => simp [AMDN.build_disorder_constraints, hpar] at h
  | cons t0 rest =>
    simp only [AMDN.build_disorder_constraints, hpar] at h
    cases hdt : AMDN.disorderTrace obs t0 (([] : CMap), ctr) with
    | error er => rw [hdt] at h; simp [Except.map] at h
    | ok res =>
      rw [hdt] at h
      simp only [Except.map] at h
      injection h with h2
      injection h2 with h3
      have hres : SoftNonneg res.1 :=
        disorderTrace_soft hp t0 _ res (by intro e he; cases he) hdt
      rw [h3] at hres
      exact hres

/-- All hard-parallel entries carry the (non-negative) numeric weight
`WMAX`. -/
theorem build_hard_parallel_soft (obs : ObsLists) :
    SoftNonneg (AMDN.build_hard_parallel_constraints obs) := by
  unfold AMDN.build_hard_parallel_constraints
  refine @foldl_preserve _ _ SoftNonneg _ obs.actions [] (by intro e he; cases he) ?_
  intro act _ d hd
  refine @foldl_preserve _ _ SoftNonneg _ obs.probabilities d hd ?_
  intro entry _ s hs
  have hW : ∀ w : ℚ, Weight.soft WMAX = Weight.soft w → 0 ≤ w := by
    intro w hw
    injection hw with hw2
    rw [← hw2]
    norm_num [WMAX]
  exact softNonneg_assocSet (softNonneg_assocSet hs hW) hW

/-- All constraints the soft-parallel builder registers have non-negative
soft weights. -/
theorem build_soft_parallel_soft {obs : ObsLists} {res : CMap × ℕ} {ctr : ℕ}
    (hp : ∀ e ∈ obs.probabilities, 0 ≤ e.2 ∧ e.2 ≤ 1)
    (h : AMDN.build_soft_parallel_constraints obs ctr = .ok res) :
    SoftNonneg res.1 := by
  unfold AMDN.build_soft_parallel_constraints at h
  cases h1 : obs.all_par_act_sets.foldlM
      (fun st parActSets =>
        parActSets.foldlM
          (fun st actSet =>
            actSet.foldlM
              (fun st x =>
                actSet.foldlM
                  (fun st xp =>
                    if x ≠ xp then do
                      let p ← lookupProb obs.probabilities x xp
                      pure (obs.propositions.foldl
                        (fun s r => AMDN.softParStep (1 - p) xp x r s.1 s.2) st)
                    else pure st)
                  st)
              st)
          st)
      (([] : CMap), ctr) with
  | error er => rw [h1, except_bind_error] at h; cases h
  | ok st1 =>
    rw [h1, except_bind_ok] at h
    have hst1 : SoftNonneg st1.1 := by
      refine @foldlM_except_preserve _ _ (fun s : CMap × ℕ => SoftNonneg s.1) _ _ _
        (by intro e he; cases he) ?_ st1 h1
      intro parActSets _ s1 s2 hP1 hstep1
      refine @foldlM_except_preserve _ _ (fun s : CMap × ℕ => SoftNonneg s.1) _ _ _ hP1 ?_ s2 hstep1
      intro actSet _ s3 s4 hP3 hstep3
      refine @foldlM_except_preserve _ _ (fun s : CMap × ℕ => SoftNonneg s.1) _ _ _ hP3 ?_ s4 hstep3
      intro x _ s5 s6 hP5 hstep5
      refine @foldlM_except_preserve _ _ (fun s : CMap × ℕ => SoftNonneg s.1) _ _ _ hP5 ?_ s6 hstep5
      intro xp _ s7 s8 hP7 hstep7
      by_cases hxy : x ≠ xp
      · rw [if_pos hxy] at hstep7
        cases hlp : lookupProb obs.probabilities x xp with
        | error er => rw [hlp, except_bind_error] at hstep7; cases hstep7
        | ok p =>
          rw [hlp, except_bind_ok] at hstep7
          cases hstep7
          have hb := lookupProb_bounds hlp hp
          refine @foldl_preserve _ _ (fun s : CMap × ℕ => SoftNonneg s.1) _
            obs.propositions s7 hP7 ?_
          intro r _ s9 hs9
          exact softParStep_soft (by linarith [hb.2]) xp x r s9.2 hs9
      · rw [if_neg hxy] at hstep7
        cases hstep7
        exact hP7
    refine @foldlM_except_preserve _ _ (fun s : CMap × ℕ => SoftNonneg s.1) _ _ _ hst1 ?_ res h
    intro parActSets _ s1 s2 hP1 hstep1
    refine @foldlM_except_preserve _ _ (fun s : CMap × ℕ => SoftNonneg s.1) _ _ _ hP1 ?_ s2 hstep1
    intro j _ s3 s4 hP3 hstep3
    refine @foldlM_except_preserve _ _ (fun s : CMap × ℕ => SoftNonneg s.1) _ _ _ hP3 ?_ s4 hstep3
    intro y _ s5 s6 hP5 hstep5
    refine @foldlM_except_preserve _ _ (fun s : CMap × ℕ => SoftNonneg s.1) _ _ _ hP5 ?_ s6 hstep5
    intro xp _ s7 s8 hP7 hstep7
    by_cases hxy : y ≠ xp
    · rw [if_pos hxy] at hstep7
      cases hlp : lookupProb obs.probabilities y xp with
      | error er => rw [hlp, except_bind_error] at hstep7; cases hstep7
      | ok p =>
        rw [hlp, except_bind_ok] at hstep7
        cases hstep7
        have hb := lookupProb_bounds hlp hp
        refine @foldl_preserve _ _ (fun s : CMap × ℕ => SoftNonneg s.1) _
          obs.propositions s7 hP7 ?_
        intro r _ s9 hs9
        exact softParStep_soft hb.1 xp y r s9.2 hs9
    · rw [if_neg hxy] at hstep7
      cases hstep7
      exact hP7

/-- Merging maps with non-negative soft weights preserves the property. -/
theorem softNonneg_mapMerge {m1 m2 : CMap} (h1 : SoftNonneg m1) (h2 : SoftNonneg m2) :
    SoftNonneg (mapMerge m1 m2) := by
  unfold mapMerge
  refine @foldl_preserve _ _ SoftNonneg _ m2 m1 h1 ?_
  intro e he s hs
  exact softNonneg_assocSet hs (fun w hw => h2 e he w hw)

/-- A successful Python division of two naturals is non-negative. -/
theorem safeDiv_ok_nonneg {a b : ℕ} {w : ℚ} (h : safeDiv (a : ℚ) (b : ℚ) = .ok w) :
    0 ≤ w := by
  unfold safeDiv at h
  by_cases hb : (b : ℚ) = 0
  · rw [if_pos hb] at h; cases h
  · rw [if_neg hb] at h
    injection h with h2
    rw [← h2]
    exact div_nonneg (Nat.cast_nonneg a) (Nat.cast_nonneg b)

/-- The shared emitter only adds non-negative soft weights. -/
theorem noiseEmitInner_soft (key : ℕ → ℕ → NNF) (a : ℕ) :
    ∀ (lst : List (ℕ × ℕ)) (allOcc : ℕ) (t : ℤ) (m m2 : CMap), SoftNonneg m →
      AMDN.noiseEmitInner key a lst allOcc t m = .ok m2 → SoftNonneg m2 := by
  intro lst
  induction lst with
  | nil => intro allOcc t m m2 hm h; cases h; exact hm
  | cons rc rest IH =>
    intro allOcc t m m2 hm h
    simp only [AMDN.noiseEmitInner] at h
    by_cases hc : (rc.2 : ℤ) > t
    · rw [if_pos hc] at h
      cases hsd : safeDiv (rc.2 : ℚ) (allOcc : ℚ) with
      | error er => rw [hsd, except_bind_error] at h; cases h
      | ok w =>
        rw [hsd, except_bind_ok] at h
        refine IH _ _ _ _ ?_ h
        refine softNonneg_assocSet hm ?_
        intro w2 hw2
        injection hw2 with hw3
        rw [← hw3]
        exact safeDiv_ok_nonneg hsd
    · rw [if_neg hc] at h
      exact IH _ _ _ _ hm h

theorem noiseEmitFold_soft (key : ℕ → ℕ → NNF) :
    ∀ (d : AMDN.OccDict) (allOcc : ℕ) (t : ℤ) (m m2 : CMap), SoftNonneg m →
      AMDN.noiseEmitFold key d allOcc t m = .ok m2 → SoftNonneg m2 := by
  intro d
  induction d with
  | nil => intro allOcc t m m2 hm h; cases h; exact hm
  | cons en rest IH =>
    intro allOcc t m m2 hm h
    simp only [AMDN.noiseEmitFold] at h
    cases hi : AMDN.noiseEmitInner key en.1 en.2 allOcc t m with
    | error er => rw [hi, except_bind_error] at h; cases h
    | ok mm =>
      rw [hi, except_bind_ok] at h
      exact IH _ _ _ _ (noiseEmitInner_soft key en.1 en.2 allOcc t m mm hm hi) h

/-- Rule 7 only adds non-negative soft weights. -/
theorem rule7Main_soft {obs : ObsLists} {occ : List (ℕ × ℕ)} {allOcc : ℕ} {m : CMap}
    (h : AMDN.rule7Main obs occ allOcc = .ok m) : SoftNonneg m := by
  unfold AMDN.rule7Main at h
  refine foldlM_except_preserve _ _ _ (by intro e he; cases he) ?_ m h
  intro i _ m1 m2 hP1 hstep1
  cases hli : listIndexE obs.states i with
  | error er => rw [hli, except_bind_error] at hstep1; cases hstep1
  | ok states =>
    rw [hli, except_bind_ok] at hstep1
    refine foldlM_except_preserve _ _ _ hP1 ?_ m2 hstep1
    intro j _ m3 m4 hP3 hstep3
    cases hsn : listIndexE states (j + 1) with
    | error er => rw [hsn, except_bind_error] at hstep3; cases hstep3
    | ok stNext =>
      rw [hsn, except_bind_ok] at hstep3
      refine foldlM_except_preserve _ _ _ hP3 ?_ m4 hstep3
      intro r _ m5 m6 hP5 hstep5
      cases hsj : listIndexE states j with
      | error er => rw [hsj, except_bind_error] at hstep5; cases hstep5
      | ok stJ =>
        rw [hsj, except_bind_ok] at hstep5
        cases hv : assocGetE stJ r with
        | error er => rw [hv, except_bind_error] at hstep5; cases hstep5
        | ok v =>
          rw [hv, except_bind_ok] at hstep5
          by_cases hvb : (!v) = true
          · rw [if_pos hvb] at hstep5
            cases hc : assocGetE occ r with
            | error er => rw [hc, except_bind_error] at hstep5; cases hstep5
            | ok c =>
              rw [hc, except_bind_ok] at hstep5
              cases hsd : safeDiv (c : ℚ) (allOcc : ℚ) with
              | error er => rw [hsd, except_bind_error] at hstep5; cases hstep5
              | ok w =>
                rw [hsd, except_bind_ok] at hstep5
                cases hstep5
                refine softNonneg_assocSet hP5 ?_
                intro w2 hw2
                injection hw2 with hw3
                rw [← hw3]
                exact safeDiv_ok_nonneg hsd
          · rw [if_neg hvb] at hstep5
            cases hstep5
            exact hP5

/-- The full noise builder only produces non-negative soft weights. -/
theorem build_noise_soft {obs : ObsLists} {t : ℤ} {nm : CMap}
    (h : AMDN.build_noise_constraints obs t = .ok nm) : SoftNonneg nm := by
  simp only [AMDN.build_noise_constraints] at h
  cases h6 : AMDN.noise_constraints_6 obs (AMDN.calculate_all_r_occ obs) t with
  | error er => rw [h6, except_bind_error] at h; cases h
  | ok m6 =>
    rw [h6, except_bind_ok] at h
    cases h7 : AMDN.noise_constraints_7 obs (AMDN.calculate_all_r_occ obs) with
    | error er => rw [h7, except_bind_error] at h; cases h
    | ok m7 =>
      rw [h7, except_bind_ok] at h
      cases h8 : AMDN.noise_constraints_8 obs (AMDN.calculate_all_r_occ obs) t with
      | error er => rw [h8, except_bind_error] at h; cases h
      | ok m8 =>
        rw [h8, except_bind_ok] at h
        cases h
        have hs6 : SoftNonneg m6 := by
          unfold AMDN.noise_constraints_6 at h6
          cases hf : AMDN.rule6Fill obs with
          | error er => rw [hf, except_bind_error] at h6; cases h6
          | ok occ =>
            rw [hf, except_bind_ok] at h6
            exact noiseEmitFold_soft _ _ _ _ _ _ (by intro e he; cases he) h6
        have hs8 : SoftNonneg m8 := by
          unfold AMDN.noise_constraints_8 at h8
          cases hf : AMDN.rule8Fill obs with
          | error er => rw [hf, except_bind_error] at h8; cases h8
          | ok occ =>
            rw [hf, except_bind_ok] at h8
            exact noiseEmitFold_soft _ _ _ _ _ _ (by intro e he; cases he) h8
        have hs7 : SoftNonneg m7 := by
          unfold AMDN.noise_constraints_7 at h7
          cases hf : AMDN.rule7Fill obs with
          | error er => rw [hf, except_bind_error] at h7; cases h7
          | ok occ =>
            rw [hf, except_bind_ok] at h7
            exact rule7Main_soft h7
        exact softNonneg_mapMerge (softNonneg_mapMerge hs6 hs7) hs8

/-- The merged constraint map of `_set_all_constraints` has non-negative
soft weights throughout. -/
theorem set_all_constraints_soft {obs : ObsLists} {t : ℤ} {ctr : ℕ} {constraints : CMap}
    {c2 : ℕ} (hp : ∀ e ∈ obs.probabilities, 0 ≤ e.2 ∧ e.2 ≤ 1)
    (h : AMDN.set_all_constraints obs t ctr = .ok (constraints, c2)) :
    SoftNonneg constraints := by
  unfold AMDN.set_all_constraints at h
  cases hd : AMDN.build_disorder_constraints obs ctr with
  | error er => rw [hd, except_bind_error] at h; cases h
  | ok d =>
    rw [hd, except_bind_ok] at h
    cases hu : AMDN.unpackDisorder d with
    | error er => rw [hu, except_bind_error] at h; cases h
    | ok dOk =>
      rw [hu, except_bind_ok] at h
      cases hbp : AMDN.build_parallel_constraints obs dOk.2 with
      | error er => rw [hbp, except_bind_error] at h; cases h
      | ok p =>
        rw [hbp, except_bind_ok] at h
        cases hbn : AMDN.build_noise_constraints obs t with
        | error er => rw [hbn, except_bind_error] at h; cases h
        | ok nm =>
          rw [hbn, except_bind_ok] at h
          injection h with h2
          have hconstr : constraints = mapMerge (mapMerge dOk.1 p.1) nm := by
            have := congrArg Prod.fst h2
            simpa using this.symm
          have hdOk : d = some dOk := by
            cases d with
            | none => cases hu
            | some s => injection hu with hu2; rw [hu2]
          rw [hdOk] at hd
          have hdm : SoftNonneg dOk.1 := @build_disorder_soft obs dOk.1 dOk.2 ctr hp hd
          have hpm : SoftNonneg p.1 := by
            unfold AMDN.build_parallel_constraints at hbp
            cases hsp : AMDN.build_soft_parallel_constraints obs dOk.2 with
            | error er => rw [hsp, except_bind_error] at hbp; cases hbp
            | ok sres =>
              rw [hsp, except_bind_ok] at hbp
              injection hbp with hbp2
              have hsm : SoftNonneg sres.1 := build_soft_parallel_soft hp hsp
              have hpeq : p.1 = mapMerge (AMDN.build_hard_parallel_constraints obs) sres.1 := by
                have := congrArg Prod.fst hbp2
                simpa using this.symm
              rw [hpeq]
              exact softNonneg_mapMerge (build_hard_parallel_soft obs) hsm
          have hnm : SoftNonneg nm := build_noise_soft hbn
          rw [hconstr]
          exact softNonneg_mapMerge (softNonneg_mapMerge hdm hpm) hnm

/-- Deleting keys only removes entries. -/
theorem mem_assocDel {α β : Type} [DecidableEq α] {m : List (α × β)} {k : α} {e : α × β}
    (h : e ∈ assocDel m k) : e ∈ m := by
  induction m with
  | nil => cases h
  | cons e0 rest IH =>
    by_cases he : e0.1 = k
    · rw [assocDel, if_pos he] at h
      exact List.mem_cons_of_mem _ (IH h)
    · rw [assocDel, if_neg he] at h
      rcases List.mem_cons.mp h with rfl | h2
      · exact List.mem_cons_self _ _
      · exact List.mem_cons_of_mem _ (IH h2)

theorem mem_foldl_assocDel {α β : Type} [DecidableEq α] :
    ∀ (l : List α) (m : List (α × β)) (e : α × β),
      e ∈ l.foldl (fun m2 c => assocDel m2 c) m → e ∈ m := by
  intro l
  induction l with
  | nil => intro m e h; exact h
  | cons k rest IH =>
    intro m e h
    exact mem_assocDel (IH _ _ h)

/-- C3 (amended: soft weights are non-negative rather than strictly
positive — a disorder probability of 0 or 1 makes one hypothesis' weight
zero).  For probability tables with values in [0, 1], every soft weight of
the emitted weighted-CNF problem is non-negative, and the hard sentinel is
recomputed as the summed soft weight plus one, hence strictly greater than
the sum of all soft weights. -/
theorem c3_weights_nonneg_sentinel (obs : ObsLists) (t : ℤ) (ctr : ℕ)
    (w : AMDN.WCNFProb) (k : ℕ)
    (hp : ∀ e ∈ obs.probabilities, 0 ≤ e.2 ∧ e.2 ≤ 1)
    (hok : AMDN.solve_constraints obs t ctr = .ok (w, k)) :
    (∀ q ∈ w.softWeights, 0 ≤ q) ∧ w.sentinel = w.softWeights.sum + 1 ∧
    w.softWeights.sum < w.sentinel := by
  unfold AMDN.solve_constraints at hok
  cases hsa : AMDN.set_all_constraints obs t ctr with
  | error er => rw [hsa, except_bind_error] at hok; cases hok
  | ok sc =>
    rw [hsa, except_bind_ok] at hok
    obtain ⟨constraints, c2⟩ := sc
    cases hok
    have hsoft : SoftNonneg constraints := set_all_constraints_soft hp hsa
    refine ⟨?_, rfl, by simp [AMDN.to_wcnf]⟩
    intro q hq
    rcases List.mem_map.mp hq with ⟨e, he, rfl⟩
    have he2 : e ∈ constraints := mem_foldl_assocDel _ _ _ he
    cases hw : e.2 with
    | hard => simp [AMDN.weightValue, hw]
    | soft w2 =>
      have : (0 : ℚ) ≤ w2 := hsoft e he2 w2 hw
      simpa [AMDN.weightValue, hw] using this

/-- C3 counterexample: on `obsC3`, whose single action pair carries disorder
probability 1, the emitted problem's soft-weight list contains the weight
0, which is not strictly positive — refuting the claim that every soft
constraint weight is strictly positive. -/
theorem c3_zero_soft_weight :
    (0 : ℚ) ∈ c3SoftWeights ∧ ¬(0 : ℚ) < (0 : ℚ) := by
  constructor
  · with_unfolding_all decide
  · simp

/-- Witness for C3 on `obsC3` (probability 1 lies in [0, 1]). -/
theorem c3_weights_nonneg_sentinel_witness :
    (∀ q ∈ c3Prob.softWeights, 0 ≤ q) ∧ c3Prob.sentinel = c3Prob.softWeights.sum + 1 ∧
    c3Prob.softWeights.sum < c3Prob.sentinel := by
  have hok : AMDN.solve_constraints obsC3 0 0 = .ok (c3Prob, c3Ctr) := by
    with_unfolding_all decide
  exact c3_weights_nonneg_sentinel obsC3 0 0 c3Prob c3Ctr (by norm_num [obsC3]) hok

/-- Witness for C10: a one-step trace whose only action is the queried one
raises `IndexError`; on a trace where the queried action is not last the
hypothesis side is also exercised. -/
theorem c10_post_state_queries_witness :
    get_post_states c10TrLast 5 = .error .indexError ∧
    get_sas_triples c10TrLast 5 = .error .indexError ∧
    lastActionIs c10TrOk 5 = false ∧ occCount c10TrOk 5 = 1 := by
  have h1 := (c10_post_state_queries c10TrLast 5).1 (by decide)
  exact ⟨h1.1, h1.2, by decide, by decide⟩

end Macq
